import Mathlib

/-!
Verification of the consensus engine of Trycycler (`trycycler/consensus.py`).

Sequences are modelled as `List Char` with the gap character `'-'`.  A chunk of
the multiple sequence alignment is either a `same` chunk (one shared sequence)
or a `different` chunk (one subsequence per input name, names being encoded by
their position in the list, in the sorted-name order the source uses).
Python dictionaries keyed by name are therefore modelled by lists in name
order; Python sets of read names are modelled by `Finset String`.
-/

/-- Gap removal, as in the source's `replace('-', '')`. -/
def remove_gaps (s : List Char) : List Char := s.filter (fun b => b != '-')

/-- Mismatch count between two equal-length sequences (`hamming_distance` in the
source, which walks the positions of `s1` and compares with `s2`). -/
def hamming_distance (s1 s2 : List Char) : Nat :=
  (s1.zip s2).countP (fun p => p.1 != p.2)

/-- Worker for `firstDedup`, structurally recursive on a fuel bound that always
dominates the list length. -/
def firstDedupGo {α : Type} [DecidableEq α] : Nat → List α → List α
  | _, [] => []
  | 0, _ :: _ => []
  | n + 1, x :: xs => x :: firstDedupGo n (xs.filter (fun y => y != x))

/-- Distinct elements of a list in first-occurrence order: the key order of a
Python `dict` / `collections.Counter` built by repeated insertion. -/
def firstDedup {α : Type} [DecidableEq α] (l : List α) : List α := firstDedupGo l.length l

/-- The entries of `collections.Counter(options).items()`: each distinct option
(first-occurrence order) paired with its number of occurrences. -/
def counter_items (options : List (List Char)) : List (List Char × Nat) :=
  (firstDedup options).map (fun x => (x, options.count x))

/-- Python's lexicographic string comparison `a <= b` over the characters. -/
def strLe : List Char → List Char → Bool
  | [], _ => true
  | _ :: _, [] => false
  | a :: as, b :: bs => if a < b then true else if b < a then false else strLe as bs

/-- A typed MSA chunk: the source's `Chunk` class once its `type` is fixed
(`'same'` holding `seq`, `'different'` holding the per-name `seqs`). -/
inductive ChunkData : Type
  | same (seq : List Char)
  | different (seqs : List (List Char))
deriving DecidableEq, Repr, Inhabited

/-- Whether the chunk's `type` is `'same'`. -/
def ChunkData.isSame : ChunkData → Bool
  | ChunkData.same _ => true
  | ChunkData.different _ => false

/-- The source's `Chunk.get_length`: length of the shared sequence for a same
chunk; for a different chunk the source asserts all subsequences have one
common length and returns it, modelled by the first subsequence's length. -/
def ChunkData.get_length : ChunkData → Nat
  | ChunkData.same s => s.length
  | ChunkData.different ss => ss.headI.length

/-- Basic well-formedness: a different chunk has at least one named row. -/
def ChunkData.wf : ChunkData → Bool
  | ChunkData.same _ => true
  | ChunkData.different ss => !ss.isEmpty

/-- Full well-formedness: a different chunk is non-empty and all of its rows
have equal length (the invariant `Chunk.get_length` asserts). -/
def ChunkData.lenWF : ChunkData → Bool
  | ChunkData.same _ => true
  | ChunkData.different ss => !ss.isEmpty && ss.all (fun t => t.length == ss.headI.length)

/-- Number of distinct bases in one MSA column: `len(set(bases.values()))`. -/
def baseCount (col : List Char) : Nat := col.dedup.length

/-- The source's `Chunk.can_add_bases`: an untyped chunk accepts anything, a
same chunk only a column with one distinct base, a different chunk only a
column with more than one distinct base. -/
def canAdd : Option ChunkData → List Char → Bool
  | none, _ => true
  | some (ChunkData.same _), col => baseCount col == 1
  | some (ChunkData.different _), col => decide (1 < baseCount col)

/-- `Chunk.add_bases` on a fresh chunk: fixes the type from the column's
distinct-base count and stores the first column. -/
def newChunk (col : List Char) : ChunkData :=
  if baseCount col == 1 then ChunkData.same [col.headI]
  else ChunkData.different (col.map (fun b => [b]))

/-- `Chunk.add_bases` on an already-typed chunk: append the (single) base to a
same chunk, or each name's base to that name's row of a different chunk. -/
def addBases : ChunkData → List Char → ChunkData
  | ChunkData.same s, col => ChunkData.same (s ++ [col.headI])
  | ChunkData.different ss, col =>
    ChunkData.different (List.zipWith (fun s b => s ++ [b]) ss col)

/-- The column loop of `partition_msa` (lines 64-79): keep one open chunk,
emit it whenever the next column is incompatible, emit the final open chunk. -/
def partitionCols : List (List Char) → Option ChunkData → List ChunkData
  | [], none => []
  | [], some c => [c]
  | col :: cols, none => partitionCols cols (some (newChunk col))
  | col :: cols, some c =>
    if canAdd (some c) col then partitionCols cols (some (addBases c col))
    else c :: partitionCols cols (some (newChunk col))

/-- The per-index column of the MSA: `{n: msa_seqs[n][i] for n in seq_names}`. -/
def msa_columns (msa : List (List Char)) (L : Nat) : List (List Char) :=
  (List.range L).map (fun i => msa.map (fun s => s.getD i '-'))

/-- The chunk list `partition_msa` builds before `combine_chunks` runs. -/
def partition_chunks (msa : List (List Char)) (L : Nat) : List ChunkData :=
  partitionCols (msa_columns msa L) none

/-- `Chunk.add_one_seq_to_seqs`: append one shared segment to every row of a
different chunk (the source asserts the chunk is different; on a same chunk,
which that assertion excludes, the chunk is returned unchanged). -/
def add_one_seq_to_seqs : ChunkData → List Char → ChunkData
  | ChunkData.different ss, t => ChunkData.different (ss.map (fun s => s ++ t))
  | ChunkData.same s, _ => ChunkData.same s

/-- `Chunk.add_multiple_seqs_to_seqs`: concatenate, row by row, another
different chunk's rows onto this one's (again asserted different in source). -/
def add_multiple_seqs_to_seqs : ChunkData → List (List Char) → ChunkData
  | ChunkData.different ts, ss => ChunkData.different (List.zipWith (fun t s => t ++ s) ts ss)
  | ChunkData.same t, _ => ChunkData.same t

/-- Pass A of `combine_chunks` after the first chunk has been taken as the
running last kept chunk: different chunks are kept, small same chunks are
absorbed into the previous kept chunk, large same chunks are kept. -/
def combineGoA (k : Nat) : ChunkData → List ChunkData → List ChunkData
  | last, [] => [last]
  | last, ChunkData.different ss :: cs => last :: combineGoA k (ChunkData.different ss) cs
  | last, ChunkData.same s :: cs =>
    if s.length ≤ k then combineGoA k (add_one_seq_to_seqs last s) cs
    else last :: combineGoA k (ChunkData.same s) cs

/-- Pass A of `combine_chunks` (absorb small same chunks). -/
def combineA (k : Nat) : List ChunkData → List ChunkData
  | [] => []
  | c :: cs => combineGoA k c cs

/-- Pass B of `combine_chunks` after the first chunk has been taken as the
running last kept chunk: same chunks are kept, a different chunk is merged
into the previous chunk when that one is also different. -/
def combineGoB : ChunkData → List ChunkData → List ChunkData
  | last, [] => [last]
  | last, ChunkData.same s :: cs => last :: combineGoB (ChunkData.same s) cs
  | ChunkData.different ts, ChunkData.different ss :: cs =>
    combineGoB (add_multiple_seqs_to_seqs (ChunkData.different ts) ss) cs
  | ChunkData.same t, ChunkData.different ss :: cs =>
    ChunkData.same t :: combineGoB (ChunkData.different ss) cs

/-- Pass B of `combine_chunks` (merge newly adjacent different chunks). -/
def combineB : List ChunkData → List ChunkData
  | [] => []
  | c :: cs => combineGoB c cs

/-- The source's `combine_chunks`: pass A then pass B. -/
def combine_chunks (k : Nat) (chunks : List ChunkData) : List ChunkData :=
  combineB (combineA k chunks)

/-- The whole of `partition_msa`: partition the columns, then combine. -/
def partition_msa (msa : List (List Char)) (L : Nat) (k : Nat) : List ChunkData :=
  combine_chunks k (partition_chunks msa L)

/-- Adjacent chunks have different types (what `sanity_check_chunks` asserts). -/
def kindsDiffer (a b : ChunkData) : Prop := a.isSame ≠ b.isSame

instance : DecidableRel kindsDiffer := fun a b =>
  inferInstanceAs (Decidable (ChunkData.isSame a ≠ ChunkData.isSame b))

/-- Adjacent chunks are not both same chunks (weakening of `kindsDiffer` that
survives pass A of `combine_chunks`). -/
def noTwoSame (a b : ChunkData) : Prop := ¬(a.isSame = true ∧ b.isSame = true)

/-- No same chunk of length at most `k` sits between two different chunks. -/
def noMiddleSmallSame (k : Nat) : List ChunkData → Prop
  | a :: b :: c :: rest =>
    ¬(a.isSame = false ∧ b.isSame = true ∧ b.get_length ≤ k ∧ c.isSame = false) ∧
      noMiddleSmallSame k (b :: c :: rest)
  | _ => True

/-- Total Hamming distance from one candidate to every occurrence in the full
candidate multiset (the inner loop of `get_most_common_seq`). -/
def hamming_total (x : List Char) (options : List (List Char)) : Nat :=
  (options.map (fun y => hamming_distance x y)).sum

/-- Stage one of the tie-break in `get_most_common_seq`: sort the counter
items by descending count (Python's stable `sorted(..., reverse=True)`),
read the leading count off the head, and keep the candidates attaining it. -/
def count_leaders (options : List (List Char)) : List (List Char) :=
  let option_counts := counter_items options
  let sorted_counts := List.insertionSort (fun a b => b.2 ≤ a.2) option_counts
  (sorted_counts.filter (fun x => x.2 == sorted_counts.headI.2)).map Prod.fst

/-- Stage two of the tie-break: among the leading candidates, sort by total
Hamming distance to the full multiset and keep those attaining the minimum. -/
def distance_leaders (options : List (List Char)) : List (List Char) :=
  let hamming_totals := (count_leaders options).map (fun x => (x, hamming_total x options))
  let sorted_totals := List.insertionSort (fun a b => a.2 ≤ b.2) hamming_totals
  (sorted_totals.filter (fun x => x.2 == sorted_totals.headI.2)).map Prod.fst

/-- The source's `Chunk.get_most_common_seq`: a same chunk returns its shared
sequence; a different chunk returns the most common candidate, breaking count
ties by minimal total Hamming distance and remaining ties lexicographically
(`sorted(best_options)[0]`). -/
def get_most_common_seq : ChunkData → List Char
  | ChunkData.same s => s
  | ChunkData.different ss =>
    let best_options := count_leaders ss
    if best_options.length = 1 then best_options.headI
    else
      let best_options2 := distance_leaders ss
      if best_options2.length = 1 then best_options2.headI
      else (List.insertionSort (fun a b => strLe a b = true) best_options2).headI

/-- The source's `make_initial_consensus`: set each chunk's best sequence to
its most common sequence, join them into the gapped consensus, and strip the
gaps for the ungapped consensus. -/
def make_initial_consensus (chunks : List ChunkData) : List Char × List Char :=
  let gapped := (chunks.map get_most_common_seq).flatten
  (gapped, remove_gaps gapped)

/-- One `dict[key] = value` assignment on a Python dict modelled as its entry
list in insertion order: overwrite the value if the key is present, else
append a new entry. -/
def pyDictInsert (d : List (Nat × Nat)) (k v : Nat) : List (Nat × Nat) :=
  if d.any (fun e => e.1 == k) then d.map (fun e => if e.1 == k then (k, v) else e)
  else d ++ [(k, v)]

/-- One iteration of `make_ungapped_pos_to_gapped_pos_dict`: state is the dict,
the ungapped-position counter and the gapped index; record the counter's
current gapped index, then advance the counter on a non-gap base. -/
def dictStep (st : List (Nat × Nat) × Nat × Nat) (b : Char) : List (Nat × Nat) × Nat × Nat :=
  (pyDictInsert st.1 st.2.1 st.2.2, (if b != '-' then st.2.1 + 1 else st.2.1), st.2.2 + 1)

/-- The source's `make_ungapped_pos_to_gapped_pos_dict`, returning the dict
together with the final ungapped-position counter (which the source asserts
equals the ungapped length). -/
def make_ungapped_pos_to_gapped_pos_dict (s : List Char) : List (Nat × Nat) × Nat :=
  ((s.foldl dictStep ([], 0, 0)).1, (s.foldl dictStep ([], 0, 0)).2.1)

/-- Python dict lookup `d[k]` on the entry-list model; `none` is a `KeyError`. -/
def dictGet (d : List (Nat × Nat)) (k : Nat) : Option Nat :=
  (d.find? (fun e => e.1 == k)).map Prod.snd

/-- The gapped positions holding non-gap bases, in order. -/
def nonGapIndices (s : List Char) : List Nat :=
  (List.range s.length).filter (fun i => s.getD i '-' != '-')

/-- Pair each element of a list with its position, starting from `n`. -/
def withIdxFrom (n : Nat) : List Nat → List (Nat × Nat)
  | [] => []
  | v :: vs => (n, v) :: withIdxFrom (n + 1) vs

/-- Closed form of the coordinate dict: entry `p ↦ i` for the `p`-th non-gap
position `i`, plus — exactly when the sequence ends in a gap — one extra entry
mapping the full ungapped length to the final gapped index. -/
def dictSpec (s : List Char) : List (Nat × Nat) :=
  withIdxFrom 0 (nonGapIndices s) ++
    (if s.getLast? = some '-' then [((remove_gaps s).length, s.length - 1)] else [])

/-- An alignment record as produced by the aligner collaborator
(`align_reads_to_seq`), with the fields `index_reads` consumes. -/
structure AlignmentRecord : Type where
  query_name : String
  ref_start : Nat
  ref_end : Nat
  query_start : Nat
  query_end : Nat
  query_cov : Rat
  alignment_score : Int
deriving DecidableEq, Inhabited, Repr

/-- Reference construction in `index_reads`: the doubled ungapped consensus
when circular, the ungapped consensus itself otherwise. -/
def build_reference (circular : Bool) (consensus_seq_without_gaps : List Char) : List Char :=
  if circular then consensus_seq_without_gaps ++ consensus_seq_without_gaps
  else consensus_seq_without_gaps

/-- Circular trimming in `index_reads`: when circular, drop every alignment
whose `ref_start` is at or beyond the original ungapped length. -/
def trim_circular_alignments (circular : Bool) (ungapped_len : Nat)
    (alignments : List AlignmentRecord) : List AlignmentRecord :=
  if circular then alignments.filter (fun a => decide (a.ref_start < ungapped_len))
  else alignments

/-- The source's `get_best_alignment_per_read`: group by read name (insertion
order), stably sort each group by descending score, keep each group's head. -/
def get_best_alignment_per_read (alignments : List AlignmentRecord) : List AlignmentRecord :=
  let read_names := firstDedup (alignments.map (fun a => a.query_name))
  read_names.map (fun name =>
    (List.insertionSort (fun a b => b.alignment_score ≤ a.alignment_score)
      (alignments.filter (fun a => a.query_name == name))).headI)

/-- Modelled from the spec: `range_overlap` is imported from the `misc` module,
which is not part of the studied source; the spec describes it as a non-empty
intersection test on half-open intervals. -/
def range_overlap (x1 x2 y1 y2 : Nat) : Bool := decide (x1 < y2) && decide (y1 < x2)

/-- The per-alignment body of the read-gathering loop in `index_reads` (lines
145-155): translate the alignment's ungapped endpoints through the coordinate
dict and add the read to the chunk when its footprint overlaps the chunk's
gapped range; a missing dict key is a `KeyError`, modelled as `none`. -/
def process_alignment (d : List (Nat × Nat)) (uLen gLen chunk_start chunk_end : Nat)
    (read_names : Finset String) (a : AlignmentRecord) : Option (Finset String) :=
  match dictGet d a.ref_start with
  | none => none
  | some gapped_start =>
    if a.ref_end ≤ uLen then
      match dictGet d a.ref_end with
      | none => none
      | some gapped_end =>
        some (if range_overlap chunk_start chunk_end gapped_start gapped_end then
          insert a.query_name read_names else read_names)
    else
      match dictGet d (a.ref_end - uLen) with
      | none => none
      | some gapped_end =>
        some (if range_overlap chunk_start chunk_end gapped_start gLen ||
            range_overlap chunk_start chunk_end 0 gapped_end then
          insert a.query_name read_names else read_names)

/-- The inner alignment loop of `index_reads` for one different chunk. -/
def gather_chunk_reads (d : List (Nat × Nat)) (uLen gLen chunk_start chunk_end : Nat)
    (read_names : Finset String) (alignments : List AlignmentRecord) : Option (Finset String) :=
  alignments.foldlM (process_alignment d uLen gLen chunk_start chunk_end) read_names

/-- The chunk loop of `index_reads` (lines 139-159): walk the chunks with a
running gapped cursor, gathering reads for each different chunk, and return
the updated chunks with the final cursor (which the source asserts equals the
gapped consensus length). -/
def index_chunk_reads (d : List (Nat × Nat)) (uLen gLen : Nat) (alignments : List AlignmentRecord) :
    Nat → List (ChunkData × Finset String) → Option (List (ChunkData × Finset String) × Nat)
  | chunk_start, [] => some ([], chunk_start)
  | chunk_start, (c, names) :: rest =>
    match c with
    | ChunkData.different ss =>
      match gather_chunk_reads d uLen gLen chunk_start
          (chunk_start + (ChunkData.different ss).get_length) names alignments with
      | none => none
      | some names2 =>
        (index_chunk_reads d uLen gLen alignments
            (chunk_start + (ChunkData.different ss).get_length) rest).map
          (fun r => ((ChunkData.different ss, names2) :: r.1, r.2))
    | ChunkData.same s =>
      (index_chunk_reads d uLen gLen alignments
          (chunk_start + (ChunkData.same s).get_length) rest).map
        (fun r => ((ChunkData.same s, names) :: r.1, r.2))

/-- Total gapped length of a chunk list carrying read-name state. -/
def totalLen (cs : List (ChunkData × Finset String)) : Nat :=
  (cs.map (fun p => p.1.get_length)).sum

/-! ### Generic helper lemmas -/

theorem firstDedupGo_mem {α : Type} [DecidableEq α] :
    ∀ (n : Nat) (l : List α), l.length ≤ n → ∀ a : α, (a ∈ firstDedupGo n l ↔ a ∈ l)
  | _, [], _, a => by simp [firstDedupGo]
  | 0, x :: xs, h, a => by simp at h
  | n + 1, x :: xs, h, a => by
    rw [firstDedupGo]
    have hlen : (xs.filter (fun y => y != x)).length ≤ n :=
      le_trans (List.length_filter_le _ _) (Nat.lt_succ_iff.mp (lt_of_lt_of_le (Nat.lt_succ_of_le le_rfl) h))
    rw [List.mem_cons, firstDedupGo_mem n (xs.filter (fun y => y != x)) hlen a]
    simp only [List.mem_filter, bne_iff_ne, ne_eq, decide_not, Bool.not_eq_eq_eq_not,
      Bool.not_true, decide_eq_false_iff_not, List.mem_cons]
    by_cases hax : a = x <;> simp [hax]

theorem mem_firstDedup {α : Type} [DecidableEq α] (l : List α) (a : α) :
    a ∈ firstDedup l ↔ a ∈ l :=
  firstDedupGo_mem l.length l le_rfl a

theorem firstDedupGo_nodup {α : Type} [DecidableEq α] :
    ∀ (n : Nat) (l : List α), l.length ≤ n → (firstDedupGo n l).Nodup
  | _, [], _ => by simp [firstDedupGo]
  | 0, x :: xs, h => by simp at h
  | n + 1, x :: xs, h => by
    rw [firstDedupGo]
    have hlen : (xs.filter (fun y => y != x)).length ≤ n :=
      le_trans (List.length_filter_le _ _) (Nat.lt_succ_iff.mp (lt_of_lt_of_le (Nat.lt_succ_of_le le_rfl) h))
    refine List.nodup_cons.mpr ⟨?_, firstDedupGo_nodup n _ hlen⟩
    intro hx
    rw [firstDedupGo_mem n _ hlen] at hx
    simp at hx

theorem nodup_firstDedup {α : Type} [DecidableEq α] (l : List α) : (firstDedup l).Nodup :=
  firstDedupGo_nodup l.length l le_rfl

theorem headI_mem_of_ne_nil {α : Type} [Inhabited α] {l : List α} (h : l ≠ []) :
    l.headI ∈ l := by
  cases l with
  | nil => exact absurd rfl h
  | cons a t => simp

theorem headI_insertionSort_rel {α : Type} [Inhabited α] (r : α → α → Prop) [DecidableRel r]
    (hrefl : ∀ a, r a a) (htrans : ∀ a b c, r a b → r b c → r a c)
    (htotal : ∀ a b, r a b ∨ r b a) :
    ∀ (l : List α), ∀ x ∈ l, r (List.insertionSort r l).headI x := by
  intro l
  induction l with
  | nil => intro x hx; cases hx
  | cons a l ih =>
    intro x hx
    rw [List.insertionSort]
    rcases hs : List.insertionSort r l with _ | ⟨h, t⟩
    · have hl : l = [] := by
        have hp := List.perm_insertionSort r l
        rw [hs] at hp
        exact hp.symm.eq_nil
      subst hl
      simp only [List.mem_singleton] at hx
      subst hx
      simpa [List.orderedInsert] using hrefl x
    · have hhead : ∀ y ∈ l, r h y := by
        intro y hy
        have := ih y hy
        rwa [hs] at this
      rw [List.orderedInsert]
      by_cases hr : r a h
      · simp only [if_pos hr, List.headI_cons]
        rcases List.mem_cons.mp hx with rfl | hxl
        · exact hrefl x
        · exact htrans a h x hr (hhead x hxl)
      · simp only [if_neg hr, List.headI_cons]
        rcases List.mem_cons.mp hx with rfl | hxl
        · exact (htotal x h).resolve_left hr
        · exact hhead x hxl

theorem strLe_refl : ∀ a : List Char, strLe a a = true
  | [] => rfl
  | c :: cs => by simp [strLe, strLe_refl cs]

theorem strLe_total : ∀ a b : List Char, strLe a b = true ∨ strLe b a = true
  | [], _ => Or.inl rfl
  | _ :: _, [] => Or.inr rfl
  | a :: as, b :: bs => by
    rcases lt_trichotomy a b with h | h | h
    · left; simp [strLe, h]
    · subst h
      rcases strLe_total as bs with ih | ih
      · left; simp [strLe, ih]
      · right; simp [strLe, ih]
    · right; simp [strLe, h]

theorem strLe_trans : ∀ a b c : List Char,
    strLe a b = true → strLe b c = true → strLe a c = true
  | [], _, _, _, _ => rfl
  | _ :: _, [], _, hab, _ => by simp [strLe] at hab
  | _ :: _, _ :: _, [], _, hbc => by simp [strLe] at hbc
  | a :: as, b :: bs, c :: cs, hab, hbc => by
    simp only [strLe] at hab hbc ⊢
    rcases lt_trichotomy a b with h1 | h1 | h1
    · rcases lt_trichotomy b c with h2 | h2 | h2
      · simp [lt_trans h1 h2]
      · subst h2; simp [h1]
      · rw [if_neg (lt_asymm h2), if_pos h2] at hbc
        exact absurd hbc (by simp)
    · subst h1
      rcases lt_trichotomy a c with h2 | h2 | h2
      · simp [h2]
      · subst h2
        rw [if_neg (lt_irrefl a)] at hab hbc ⊢
        rw [if_neg (lt_irrefl a)] at hab hbc ⊢
        exact strLe_trans as bs cs hab hbc
      · rw [if_neg (lt_asymm h2), if_pos h2] at hbc
        exact absurd hbc (by simp)
    · rw [if_neg (lt_asymm h1), if_pos h1] at hab
      exact absurd hab (by simp)

/-! ### Consensus selector: stage characterizations -/

theorem mem_counter_items {options : List (List Char)} {e : List Char × Nat} :
    e ∈ counter_items options ↔ e.1 ∈ options ∧ e.2 = options.count e.1 := by
  unfold counter_items
  rw [List.mem_map]
  constructor
  · rintro ⟨x, hx, rfl⟩
    exact ⟨(mem_firstDedup _ _).mp hx, rfl⟩
  · rintro ⟨h1, h2⟩
    refine ⟨e.1, (mem_firstDedup _ _).mpr h1, ?_⟩
    rw [← h2]

theorem counter_items_ne_nil {options : List (List Char)} (h : options ≠ []) :
    counter_items options ≠ [] := by
  cases options with
  | nil => exact absurd rfl h
  | cons o os => simp [counter_items, firstDedup, firstDedupGo]

theorem countDesc_headI_max (oc : List (List Char × Nat)) :
    ∀ e ∈ oc, e.2 ≤ (List.insertionSort (fun a b : List Char × Nat => b.2 ≤ a.2) oc).headI.2 :=
  fun e he => headI_insertionSort_rel (fun a b : List Char × Nat => b.2 ≤ a.2)
    (fun a => le_refl a.2) (fun _ _ _ hab hbc => le_trans hbc hab)
    (fun a b => Nat.le_total b.2 a.2) oc e he

theorem distAsc_headI_min (oc : List (List Char × Nat)) :
    ∀ e ∈ oc, (List.insertionSort (fun a b : List Char × Nat => a.2 ≤ b.2) oc).headI.2 ≤ e.2 :=
  fun e he => headI_insertionSort_rel (fun a b : List Char × Nat => a.2 ≤ b.2)
    (fun a => le_refl a.2) (fun _ _ _ hab hbc => le_trans hab hbc)
    (fun a b => Nat.le_total a.2 b.2) oc e he

theorem mem_count_leaders {options : List (List Char)} {z : List Char} (hne : options ≠ []) :
    z ∈ count_leaders options ↔
      z ∈ options ∧ ∀ y ∈ options, options.count y ≤ options.count z := by
  have hOC : counter_items options ≠ [] := counter_items_ne_nil hne
  have hSC : List.insertionSort (fun a b : List Char × Nat => b.2 ≤ a.2)
      (counter_items options) ≠ [] := by
    intro h
    apply hOC
    have hlen := List.length_insertionSort (fun a b : List Char × Nat => b.2 ≤ a.2)
      (counter_items options)
    rw [h] at hlen
    exact List.length_eq_zero.mp hlen.symm
  have hheadOC : (List.insertionSort (fun a b : List Char × Nat => b.2 ≤ a.2)
      (counter_items options)).headI ∈ counter_items options :=
    ((List.perm_insertionSort _ _).mem_iff).mp (headI_mem_of_ne_nil hSC)
  obtain ⟨hh1, hh2⟩ := mem_counter_items.mp hheadOC
  unfold count_leaders
  constructor
  · intro hz
    simp only [List.mem_map, List.mem_filter] at hz
    obtain ⟨e, ⟨heSC, heq⟩, rfl⟩ := hz
    have heOC : e ∈ counter_items options := ((List.perm_insertionSort _ _).mem_iff).mp heSC
    obtain ⟨h1, h2⟩ := mem_counter_items.mp heOC
    refine ⟨h1, fun y hy => ?_⟩
    have hyOC : ((y, options.count y) : List Char × Nat) ∈ counter_items options :=
      mem_counter_items.mpr ⟨hy, rfl⟩
    have hle := countDesc_headI_max (counter_items options) _ hyOC
    rw [beq_iff_eq] at heq
    calc options.count y ≤ _ := hle
      _ = e.2 := heq.symm
      _ = options.count e.1 := h2
  · rintro ⟨hz, hmax⟩
    have hzOC : ((z, options.count z) : List Char × Nat) ∈ counter_items options :=
      mem_counter_items.mpr ⟨hz, rfl⟩
    have hle := countDesc_headI_max (counter_items options) _ hzOC
    have hge : (List.insertionSort (fun a b : List Char × Nat => b.2 ≤ a.2)
        (counter_items options)).headI.2 ≤ options.count z := by
      rw [hh2]
      exact hmax _ hh1
    simp only [List.mem_map, List.mem_filter]
    refine ⟨(z, options.count z), ⟨((List.perm_insertionSort _ _).mem_iff).mpr hzOC, ?_⟩, rfl⟩
    rw [beq_iff_eq]
    exact le_antisymm hle hge

theorem count_leaders_ne_nil {options : List (List Char)} (hne : options ≠ []) :
    count_leaders options ≠ [] := by
  have hOC : counter_items options ≠ [] := counter_items_ne_nil hne
  have hSC : List.insertionSort (fun a b : List Char × Nat => b.2 ≤ a.2)
      (counter_items options) ≠ [] := by
    intro h
    apply hOC
    have hlen := List.length_insertionSort (fun a b : List Char × Nat => b.2 ≤ a.2)
      (counter_items options)
    rw [h] at hlen
    exact List.length_eq_zero.mp hlen.symm
  have hheadOC : (List.insertionSort (fun a b : List Char × Nat => b.2 ≤ a.2)
      (counter_items options)).headI ∈ counter_items options :=
    ((List.perm_insertionSort _ _).mem_iff).mp (headI_mem_of_ne_nil hSC)
  obtain ⟨hh1, hh2⟩ := mem_counter_items.mp hheadOC
  have hmem : (List.insertionSort (fun a b : List Char × Nat => b.2 ≤ a.2)
      (counter_items options)).headI.1 ∈ count_leaders options := by
    rw [mem_count_leaders hne]
    refine ⟨hh1, fun y hy => ?_⟩
    have hyOC : ((y, options.count y) : List Char × Nat) ∈ counter_items options :=
      mem_counter_items.mpr ⟨hy, rfl⟩
    have hle := countDesc_headI_max (counter_items options) _ hyOC
    rw [← hh2]
    exact hle
  exact List.ne_nil_of_mem hmem

theorem mem_distance_leaders {options : List (List Char)} {z : List Char} (hne : options ≠ []) :
    z ∈ distance_leaders options ↔
      z ∈ count_leaders options ∧
        ∀ w ∈ count_leaders options, hamming_total z options ≤ hamming_total w options := by
  have hBO : count_leaders options ≠ [] := count_leaders_ne_nil hne
  have hHD : (count_leaders options).map (fun x => (x, hamming_total x options)) ≠ [] := by
    simpa using hBO
  have hST : List.insertionSort (fun a b : List Char × Nat => a.2 ≤ b.2)
      ((count_leaders options).map (fun x => (x, hamming_total x options))) ≠ [] := by
    intro h
    apply hHD
    have hlen := List.length_insertionSort (fun a b : List Char × Nat => a.2 ≤ b.2)
      ((count_leaders options).map (fun x => (x, hamming_total x options)))
    rw [h] at hlen
    exact List.length_eq_zero.mp hlen.symm
  have hheadHD : (List.insertionSort (fun a b : List Char × Nat => a.2 ≤ b.2)
      ((count_leaders options).map (fun x => (x, hamming_total x options)))).headI ∈
      (count_leaders options).map (fun x => (x, hamming_total x options)) :=
    ((List.perm_insertionSort _ _).mem_iff).mp (headI_mem_of_ne_nil hST)
  obtain ⟨x0, hx0, hx0eq⟩ := List.mem_map.mp hheadHD
  unfold distance_leaders
  constructor
  · intro hz
    simp only [List.mem_map, List.mem_filter] at hz
    obtain ⟨e, ⟨heST, heq⟩, rfl⟩ := hz
    have heHD : e ∈ (count_leaders options).map (fun x => (x, hamming_total x options)) :=
      ((List.perm_insertionSort _ _).mem_iff).mp heST
    obtain ⟨x, hx, hxeq⟩ := List.mem_map.mp heHD
    have he1 : e.1 = x := by rw [← hxeq]
    have he2 : e.2 = hamming_total e.1 options := by rw [← hxeq]
    refine ⟨he1 ▸ hx, fun w hw => ?_⟩
    have hwHD : ((w, hamming_total w options) : List Char × Nat) ∈
        (count_leaders options).map (fun x => (x, hamming_total x options)) :=
      List.mem_map.mpr ⟨w, hw, rfl⟩
    have hle := distAsc_headI_min _ _ hwHD
    rw [beq_iff_eq] at heq
    calc hamming_total e.1 options = e.2 := he2.symm
      _ = _ := heq
      _ ≤ hamming_total w options := hle
  · rintro ⟨hz, hmin⟩
    have hzHD : ((z, hamming_total z options) : List Char × Nat) ∈
        (count_leaders options).map (fun x => (x, hamming_total x options)) :=
      List.mem_map.mpr ⟨z, hz, rfl⟩
    have hge := distAsc_headI_min _ _ hzHD
    have hle : hamming_total z options ≤ (List.insertionSort
        (fun a b : List Char × Nat => a.2 ≤ b.2)
        ((count_leaders options).map (fun x => (x, hamming_total x options)))).headI.2 := by
      have : (List.insertionSort (fun a b : List Char × Nat => a.2 ≤ b.2)
          ((count_leaders options).map (fun x => (x, hamming_total x options)))).headI.2 =
          hamming_total x0 options := by rw [← hx0eq]
      rw [this]
      exact hmin x0 hx0
    simp only [List.mem_map, List.mem_filter]
    refine ⟨(z, hamming_total z options), ⟨((List.perm_insertionSort _ _).mem_iff).mpr hzHD, ?_⟩,
      rfl⟩
    rw [beq_iff_eq]
    exact le_antisymm hle hge

theorem distance_leaders_ne_nil {options : List (List Char)} (hne : options ≠ []) :
    distance_leaders options ≠ [] := by
  have hBO : count_leaders options ≠ [] := count_leaders_ne_nil hne
  have hHD : (count_leaders options).map (fun x => (x, hamming_total x options)) ≠ [] := by
    simpa using hBO
  have hST : List.insertionSort (fun a b : List Char × Nat => a.2 ≤ b.2)
      ((count_leaders options).map (fun x => (x, hamming_total x options))) ≠ [] := by
    intro h
    apply hHD
    have hlen := List.length_insertionSort (fun a b : List Char × Nat => a.2 ≤ b.2)
      ((count_leaders options).map (fun x => (x, hamming_total x options)))
    rw [h] at hlen
    exact List.length_eq_zero.mp hlen.symm
  have hheadHD : (List.insertionSort (fun a b : List Char × Nat => a.2 ≤ b.2)
      ((count_leaders options).map (fun x => (x, hamming_total x options)))).headI ∈
      (count_leaders options).map (fun x => (x, hamming_total x options)) :=
    ((List.perm_insertionSort _ _).mem_iff).mp (headI_mem_of_ne_nil hST)
  obtain ⟨x0, hx0, hx0eq⟩ := List.mem_map.mp hheadHD
  have hmem : x0 ∈ distance_leaders options := by
    rw [mem_distance_leaders hne]
    refine ⟨hx0, fun w hw => ?_⟩
    have hwHD : ((w, hamming_total w options) : List Char × Nat) ∈
        (count_leaders options).map (fun x => (x, hamming_total x options)) :=
      List.mem_map.mpr ⟨w, hw, rfl⟩
    have hle := distAsc_headI_min _ _ hwHD
    have hx0val : (List.insertionSort (fun a b : List Char × Nat => a.2 ≤ b.2)
        ((count_leaders options).map (fun x => (x, hamming_total x options)))).headI.2 =
        hamming_total x0 options := by rw [← hx0eq]
    rw [← hx0val]
    exact hle
  exact List.ne_nil_of_mem hmem

theorem insertionSort_ne_nil {α : Type} (r : α → α → Prop) [DecidableRel r] {l : List α}
    (h : l ≠ []) : List.insertionSort r l ≠ [] := by
  intro h0
  apply h
  have hlen := List.length_insertionSort r l
  rw [h0] at hlen
  exact List.length_eq_zero.mp hlen.symm

theorem strLe_headI_insertionSort (l : List (List Char)) :
    ∀ x ∈ l, strLe (List.insertionSort (fun a b => strLe a b = true) l).headI x = true :=
  headI_insertionSort_rel (fun a b => strLe a b = true) strLe_refl
    (fun a b c => strLe_trans a b c) strLe_total l

theorem get_most_common_mem (ss : List (List Char)) (hne : ss ≠ []) :
    get_most_common_seq (ChunkData.different ss) ∈ ss := by
  have hunf : get_most_common_seq (ChunkData.different ss) =
      (if (count_leaders ss).length = 1 then (count_leaders ss).headI
       else if (distance_leaders ss).length = 1 then (distance_leaders ss).headI
       else (List.insertionSort (fun a b => strLe a b = true) (distance_leaders ss)).headI) :=
    rfl
  by_cases h1 : (count_leaders ss).length = 1
  · rw [hunf, if_pos h1]
    obtain ⟨z, hz⟩ := List.length_eq_one.mp h1
    have hzBO : (count_leaders ss).headI ∈ count_leaders ss := by rw [hz]; simp
    exact ((mem_count_leaders hne).mp hzBO).1
  · have hBO2ne := distance_leaders_ne_nil hne
    by_cases h2 : (distance_leaders ss).length = 1
    · rw [hunf, if_neg h1, if_pos h2]
      obtain ⟨w, hw⟩ := List.length_eq_one.mp h2
      have hwBO2 : (distance_leaders ss).headI ∈ distance_leaders ss := by rw [hw]; simp
      exact ((mem_count_leaders hne).mp ((mem_distance_leaders hne).mp hwBO2).1).1
    · rw [hunf, if_neg h1, if_neg h2]
      have hmem : (List.insertionSort (fun a b => strLe a b = true)
          (distance_leaders ss)).headI ∈ distance_leaders ss :=
        ((List.perm_insertionSort _ _).mem_iff).mp
          (headI_mem_of_ne_nil (insertionSort_ne_nil _ hBO2ne))
      exact ((mem_count_leaders hne).mp ((mem_distance_leaders hne).mp hmem).1).1

theorem get_most_common_length (c : ChunkData) (hwf : c.lenWF = true) :
    (get_most_common_seq c).length = c.get_length := by
  cases c with
  | same s => rfl
  | different ss =>
    rw [ChunkData.lenWF, Bool.and_eq_true] at hwf
    have hne : ss ≠ [] := by
      intro h
      rw [h] at hwf
      simp at hwf
    have hall := List.all_eq_true.mp hwf.2
    have hmem := get_most_common_mem ss hne
    have := hall _ hmem
    rw [beq_iff_eq] at this
    exact this

/-- C1: for every non-empty different chunk whose rows all have equal length,
the selected best sequence is an occurring candidate of maximal occurrence
count; among the maximal-count candidates its total Hamming distance to the
full candidate multiset (duplicates included) is minimal; and among candidates
still tied on both criteria it is lexicographically least.  In particular a
unique maximal-count candidate is always the one chosen. -/
theorem claim_C1_best_seq_selection (ss : List (List Char)) (hne : ss ≠ [])
    (hlen : ∀ t ∈ ss, t.length = ss.headI.length) :
    get_most_common_seq (ChunkData.different ss) ∈ ss ∧
    (∀ y ∈ ss, ss.count y ≤ ss.count (get_most_common_seq (ChunkData.different ss))) ∧
    (∀ y ∈ ss, ss.count y = ss.count (get_most_common_seq (ChunkData.different ss)) →
      hamming_total (get_most_common_seq (ChunkData.different ss)) ss ≤ hamming_total y ss) ∧
    (∀ y ∈ ss, ss.count y = ss.count (get_most_common_seq (ChunkData.different ss)) →
      hamming_total y ss = hamming_total (get_most_common_seq (ChunkData.different ss)) ss →
      strLe (get_most_common_seq (ChunkData.different ss)) y = true) := by
  have hunf : get_most_common_seq (ChunkData.different ss) =
      (if (count_leaders ss).length = 1 then (count_leaders ss).headI
       else if (distance_leaders ss).length = 1 then (distance_leaders ss).headI
       else (List.insertionSort (fun a b => strLe a b = true) (distance_leaders ss)).headI) :=
    rfl
  by_cases h1 : (count_leaders ss).length = 1
  · obtain ⟨z, hz⟩ := List.length_eq_one.mp h1
    have hr : get_most_common_seq (ChunkData.different ss) = z := by
      rw [hunf, if_pos h1, hz]
      rfl
    have hzBO : z ∈ count_leaders ss := by rw [hz]; simp
    obtain ⟨hz1, hz2⟩ := (mem_count_leaders hne).mp hzBO
    rw [hr]
    refine ⟨hz1, hz2, ?_, ?_⟩
    · intro y hy hcy
      have hyBO : y ∈ count_leaders ss :=
        (mem_count_leaders hne).mpr ⟨hy, fun u hu => by rw [hcy]; exact hz2 u hu⟩
      rw [hz, List.mem_singleton] at hyBO
      subst hyBO
      exact le_refl _
    · intro y hy hcy _
      have hyBO : y ∈ count_leaders ss :=
        (mem_count_leaders hne).mpr ⟨hy, fun u hu => by rw [hcy]; exact hz2 u hu⟩
      rw [hz, List.mem_singleton] at hyBO
      subst hyBO
      exact strLe_refl _
  · have hBO2ne := distance_leaders_ne_nil hne
    by_cases h2 : (distance_leaders ss).length = 1
    · obtain ⟨w, hw⟩ := List.length_eq_one.mp h2
      have hr : get_most_common_seq (ChunkData.different ss) = w := by
        rw [hunf, if_neg h1, if_pos h2, hw]
        rfl
      have hwBO2 : w ∈ distance_leaders ss := by rw [hw]; simp
      obtain ⟨hwBO, hwmin⟩ := (mem_distance_leaders hne).mp hwBO2
      obtain ⟨hw1, hw2⟩ := (mem_count_leaders hne).mp hwBO
      rw [hr]
      refine ⟨hw1, hw2, ?_, ?_⟩
      · intro y hy hcy
        have hyBO : y ∈ count_leaders ss :=
          (mem_count_leaders hne).mpr ⟨hy, fun u hu => by rw [hcy]; exact hw2 u hu⟩
        exact hwmin y hyBO
      · intro y hy hcy hh
        have hyBO : y ∈ count_leaders ss :=
          (mem_count_leaders hne).mpr ⟨hy, fun u hu => by rw [hcy]; exact hw2 u hu⟩
        have hyBO2 : y ∈ distance_leaders ss :=
          (mem_distance_leaders hne).mpr
            ⟨hyBO, fun u hu => by rw [hh]; exact hwmin u hu⟩
        rw [hw, List.mem_singleton] at hyBO2
        subst hyBO2
        exact strLe_refl _
    · have hr : get_most_common_seq (ChunkData.different ss) =
          (List.insertionSort (fun a b => strLe a b = true) (distance_leaders ss)).headI := by
        rw [hunf, if_neg h1, if_neg h2]
      have hrBO2 : get_most_common_seq (ChunkData.different ss) ∈ distance_leaders ss := by
        rw [hr]
        exact ((List.perm_insertionSort _ _).mem_iff).mp
          (headI_mem_of_ne_nil (insertionSort_ne_nil _ hBO2ne))
      obtain ⟨hrBO, hrmin⟩ := (mem_distance_leaders hne).mp hrBO2
      obtain ⟨hr1, hr2⟩ := (mem_count_leaders hne).mp hrBO
      refine ⟨hr1, hr2, ?_, ?_⟩
      · intro y hy hcy
        have hyBO : y ∈ count_leaders ss :=
          (mem_count_leaders hne).mpr ⟨hy, fun u hu => by rw [hcy]; exact hr2 u hu⟩
        exact hrmin y hyBO
      · intro y hy hcy hh
        have hyBO : y ∈ count_leaders ss :=
          (mem_count_leaders hne).mpr ⟨hy, fun u hu => by rw [hcy]; exact hr2 u hu⟩
        have hyBO2 : y ∈ distance_leaders ss :=
          (mem_distance_leaders hne).mpr
            ⟨hyBO, fun u hu => by rw [hh]; exact hrmin u hu⟩
        rw [hr]
        exact strLe_headI_insertionSort (distance_leaders ss) y hyBO2

/-- Witness for C1 at a concrete tied input: candidates A, C, A, C tie on
count and on total Hamming distance, so the lexicographic rule applies and
the chosen sequence is lexicographically at most C. -/
theorem claim_C1_witness :
    (([['A'], ['C'], ['A'], ['C']] : List (List Char)) ≠ []) ∧
    (∀ t ∈ ([['A'], ['C'], ['A'], ['C']] : List (List Char)),
      t.length = ([['A'], ['C'], ['A'], ['C']] : List (List Char)).headI.length) ∧
    strLe (get_most_common_seq (ChunkData.different [['A'], ['C'], ['A'], ['C']])) ['C'] = true :=
  ⟨by decide, by decide,
    (claim_C1_best_seq_selection [['A'], ['C'], ['A'], ['C']] (by decide) (by decide)).2.2.2
      ['C'] (by decide) (by decide) (by decide)⟩

/-! ### Chunk partitioner: alternation and total length -/

theorem isSame_addBases (c : ChunkData) (col : List Char) :
    (addBases c col).isSame = c.isSame := by
  cases c <;> rfl

theorem isSame_newChunk (col : List Char) :
    (newChunk col).isSame = (baseCount col == 1) := by
  unfold newChunk
  split_ifs with h <;> simp [ChunkData.isSame, h]

theorem baseCount_pos {col : List Char} (hcol : col ≠ []) : 1 ≤ baseCount col := by
  unfold baseCount
  rw [Nat.succ_le, List.length_pos]
  exact fun h => hcol ((List.dedup_eq_nil col).mp h)

theorem wf_addBases {c : ChunkData} {col : List Char} (hwf : c.wf = true) (hcol : col ≠ []) :
    (addBases c col).wf = true := by
  cases c with
  | same s => rfl
  | different ss =>
    cases ss with
    | nil => simp [ChunkData.wf] at hwf
    | cons s st =>
      cases col with
      | nil => exact absurd rfl hcol
      | cons b bt => simp [addBases, ChunkData.wf]

theorem wf_newChunk {col : List Char} (hcol : col ≠ []) : (newChunk col).wf = true := by
  unfold newChunk
  cases col with
  | nil => exact absurd rfl hcol
  | cons b bt => split_ifs <;> simp [ChunkData.wf]

theorem get_length_addBases {c : ChunkData} {col : List Char} (hwf : c.wf = true)
    (hcol : col ≠ []) : (addBases c col).get_length = c.get_length + 1 := by
  cases c with
  | same s => simp [addBases, ChunkData.get_length]
  | different ss =>
    cases ss with
    | nil => simp [ChunkData.wf] at hwf
    | cons s st =>
      cases col with
      | nil => exact absurd rfl hcol
      | cons b bt => simp [addBases, ChunkData.get_length]

theorem get_length_newChunk {col : List Char} (hcol : col ≠ []) :
    (newChunk col).get_length = 1 := by
  unfold newChunk
  cases col with
  | nil => exact absurd rfl hcol
  | cons b bt => split_ifs <;> simp [ChunkData.get_length]

theorem newChunk_kind_of_not_canAdd {c : ChunkData} {col : List Char} (hcol : col ≠ [])
    (h : canAdd (some c) col = false) : (newChunk col).isSame = !c.isSame := by
  cases c with
  | same s =>
    rw [canAdd] at h
    rw [isSame_newChunk, h]
    rfl
  | different ss =>
    rw [canAdd] at h
    rw [decide_eq_false_iff_not, not_lt] at h
    have h1 : baseCount col = 1 := le_antisymm h (baseCount_pos hcol)
    rw [isSame_newChunk, h1]
    rfl

theorem partitionCols_props :
    ∀ (cols : List (List Char)) (c : ChunkData), (∀ col ∈ cols, col ≠ []) → c.wf = true →
      partitionCols cols (some c) ≠ [] ∧
      (partitionCols cols (some c)).headI.isSame = c.isSame ∧
      List.Chain' kindsDiffer (partitionCols cols (some c)) ∧
      ((partitionCols cols (some c)).map ChunkData.get_length).sum = c.get_length + cols.length
  | [], c, _, _ => by
    refine ⟨by simp [partitionCols], by simp [partitionCols], by simp [partitionCols], ?_⟩
    simp [partitionCols]
  | col :: cols, c, hcols, hwf => by
    have hcol : col ≠ [] := hcols col (List.mem_cons_self _ _)
    have hrest : ∀ u ∈ cols, u ≠ [] := fun u hu => hcols u (List.mem_cons_of_mem _ hu)
    by_cases hca : canAdd (some c) col = true
    · have ih := partitionCols_props cols (addBases c col) hrest (wf_addBases hwf hcol)
      simp only [partitionCols, if_pos hca]
      refine ⟨ih.1, ?_, ih.2.2.1, ?_⟩
      · rw [ih.2.1, isSame_addBases]
      · rw [ih.2.2.2, get_length_addBases hwf hcol, List.length_cons]
        omega
    · have hca2 : canAdd (some c) col = false := by
        revert hca
        cases canAdd (some c) col <;> simp
      have ih := partitionCols_props cols (newChunk col) hrest (wf_newChunk hcol)
      simp only [partitionCols, if_neg (by simp [hca2] : ¬canAdd (some c) col = true)]
      refine ⟨by simp, by simp, ?_, ?_⟩
      · obtain ⟨r0, rrest, hr⟩ := List.exists_cons_of_ne_nil ih.1
        rw [hr]
        rw [List.chain'_cons]
        constructor
        · have hk : r0.isSame = (newChunk col).isSame := by
            have := ih.2.1
            rw [hr] at this
            simpa using this
          rw [kindsDiffer, hk, newChunk_kind_of_not_canAdd hcol hca2]
          cases c.isSame <;> simp
        · rw [← hr]
          exact ih.2.2.1
      · rw [List.map_cons, List.sum_cons, ih.2.2.2, get_length_newChunk hcol, List.length_cons]
        omega

/-- C2: for every non-empty set of equal-length aligned sequences of length L,
the chunk list the partitioner produces before combining has strictly
alternating kinds and its chunk lengths sum to L. -/
theorem claim_C2_partition_invariants (msa : List (List Char)) (L : Nat)
    (hmsa : msa ≠ []) (hlen : ∀ s ∈ msa, s.length = L) :
    List.Chain' kindsDiffer (partition_chunks msa L) ∧
    ((partition_chunks msa L).map ChunkData.get_length).sum = L := by
  have hcols : ∀ col ∈ msa_columns msa L, col ≠ [] := by
    intro col hcol
    unfold msa_columns at hcol
    rw [List.mem_map] at hcol
    obtain ⟨i, _, rfl⟩ := hcol
    simp only [ne_eq, List.map_eq_nil_iff]
    exact hmsa
  have hL : (msa_columns msa L).length = L := by simp [msa_columns]
  unfold partition_chunks
  rcases hc : msa_columns msa L with _ | ⟨col, cols⟩
  · rw [hc] at hL
    simp only [partitionCols]
    exact ⟨trivial, by simpa using hL⟩
  · rw [hc] at hcols hL
    have hcol : col ≠ [] := hcols col (List.mem_cons_self _ _)
    have hrest : ∀ u ∈ cols, u ≠ [] := fun u hu => hcols u (List.mem_cons_of_mem _ hu)
    have ih := partitionCols_props cols (newChunk col) hrest (wf_newChunk hcol)
    simp only [partitionCols]
    refine ⟨ih.2.2.1, ?_⟩
    rw [ih.2.2.2, get_length_newChunk hcol]
    rw [List.length_cons] at hL
    omega

/-- Witness for C2 on a concrete two-sequence MSA of length 2. -/
theorem claim_C2_witness :
    (([['A', 'C'], ['A', 'T']] : List (List Char)) ≠ []) ∧
    (∀ s ∈ ([['A', 'C'], ['A', 'T']] : List (List Char)), s.length = 2) ∧
    (List.Chain' kindsDiffer (partition_chunks [['A', 'C'], ['A', 'T']] 2) ∧
      ((partition_chunks [['A', 'C'], ['A', 'T']] 2).map ChunkData.get_length).sum = 2) :=
  ⟨by decide, by decide,
    claim_C2_partition_invariants [['A', 'C'], ['A', 'T']] 2 (by decide) (by decide)⟩

/-! ### Chunk combiner: invariants -/

theorem noTwoSame_of_left_false {a b : ChunkData} (h : a.isSame = false) : noTwoSame a b := by
  simp [noTwoSame, h]

theorem left_false_of_noTwoSame {a b : ChunkData} (h : noTwoSame a b)
    (hb : b.isSame = true) : a.isSame = false := by
  rw [noTwoSame, hb] at h
  cases ha : a.isSame
  · rfl
  · exact absurd ⟨ha, rfl⟩ h

theorem noTwoSame_of_right_false {a b : ChunkData} (h : b.isSame = false) : noTwoSame a b := by
  simp [noTwoSame, h]

theorem noTwoSame_of_kindsDiffer {a b : ChunkData} (h : kindsDiffer a b) : noTwoSame a b := by
  rw [kindsDiffer] at h
  rintro ⟨h1, h2⟩
  rw [h1, h2] at h
  exact h rfl

theorem isSame_add_one_seq (c : ChunkData) (t : List Char) :
    (add_one_seq_to_seqs c t).isSame = c.isSame := by
  cases c <;> rfl

theorem wf_add_one_seq {c : ChunkData} (hwf : c.wf = true) (t : List Char) :
    (add_one_seq_to_seqs c t).wf = true := by
  cases c with
  | same s => exact hwf
  | different ss =>
    cases ss with
    | nil => simp [ChunkData.wf] at hwf
    | cons s st => simp [add_one_seq_to_seqs, ChunkData.wf]

theorem get_length_add_one_seq {c : ChunkData} (hwf : c.wf = true) (hc : c.isSame = false)
    (t : List Char) : (add_one_seq_to_seqs c t).get_length = c.get_length + t.length := by
  cases c with
  | same s => simp [ChunkData.isSame] at hc
  | different ss =>
    cases ss with
    | nil => simp [ChunkData.wf] at hwf
    | cons s st => simp [add_one_seq_to_seqs, ChunkData.get_length]

theorem add_multiple_isSame (ts ss : List (List Char)) :
    (add_multiple_seqs_to_seqs (ChunkData.different ts) ss).isSame = false := rfl

theorem add_multiple_wf {ts ss : List (List Char)} (hts : ts ≠ []) (hss : ss ≠ []) :
    (add_multiple_seqs_to_seqs (ChunkData.different ts) ss).wf = true := by
  cases ts with
  | nil => exact absurd rfl hts
  | cons t tt =>
    cases ss with
    | nil => exact absurd rfl hss
    | cons s st => simp [add_multiple_seqs_to_seqs, ChunkData.wf]

theorem add_multiple_get_length {ts ss : List (List Char)} (hts : ts ≠ []) (hss : ss ≠ []) :
    (add_multiple_seqs_to_seqs (ChunkData.different ts) ss).get_length =
      (ChunkData.different ts).get_length + (ChunkData.different ss).get_length := by
  cases ts with
  | nil => exact absurd rfl hts
  | cons t tt =>
    cases ss with
    | nil => exact absurd rfl hss
    | cons s st => simp [add_multiple_seqs_to_seqs, ChunkData.get_length]

theorem combineGoA_props (k : Nat) :
    ∀ (l : List ChunkData) (last : ChunkData),
      List.Chain' noTwoSame (last :: l) → last.wf = true → (∀ c ∈ l, c.wf = true) →
      combineGoA k last l ≠ [] ∧
      (combineGoA k last l).headI.isSame = last.isSame ∧
      List.Chain' noTwoSame (combineGoA k last l) ∧
      (∀ c ∈ combineGoA k last l, c.wf = true) ∧
      ((combineGoA k last l).map ChunkData.get_length).sum =
        last.get_length + (l.map ChunkData.get_length).sum
  | [], last, _, hwl, _ => by
    refine ⟨by simp [combineGoA], by simp [combineGoA], by simp [combineGoA], ?_, ?_⟩
    · intro c hc
      rw [combineGoA, List.mem_singleton] at hc
      subst hc
      exact hwl
    · simp [combineGoA]
  | ChunkData.different ss :: cs, last, hch, hwl, hwr => by
    obtain ⟨h12, hrest⟩ := List.chain'_cons.mp hch
    have ih := combineGoA_props k cs (ChunkData.different ss) hrest
      (hwr _ (List.mem_cons_self _ _)) (fun c hc => hwr c (List.mem_cons_of_mem _ hc))
    obtain ⟨r0, rrest, hr⟩ := List.exists_cons_of_ne_nil ih.1
    have hr0 : r0.isSame = false := by
      have := ih.2.1
      rw [hr] at this
      simpa [ChunkData.isSame] using this
    rw [combineGoA]
    refine ⟨by simp, by simp, ?_, ?_, ?_⟩
    · rw [hr, List.chain'_cons]
      exact ⟨noTwoSame_of_right_false hr0, by rw [← hr]; exact ih.2.2.1⟩
    · intro c hc
      rcases List.mem_cons.mp hc with rfl | hc2
      · exact hwl
      · exact ih.2.2.2.1 c hc2
    · rw [List.map_cons, List.sum_cons, ih.2.2.2.2, List.map_cons, List.sum_cons]
  | ChunkData.same s :: cs, last, hch, hwl, hwr => by
    obtain ⟨h12, hrest⟩ := List.chain'_cons.mp hch
    have hlf : last.isSame = false := left_false_of_noTwoSame h12 rfl
    by_cases hk : s.length ≤ k
    · have hwn : (add_one_seq_to_seqs last s).wf = true := wf_add_one_seq hwl s
      have hnf : (add_one_seq_to_seqs last s).isSame = false := by
        rw [isSame_add_one_seq, hlf]
      have hchainN : List.Chain' noTwoSame (add_one_seq_to_seqs last s :: cs) := by
        obtain ⟨_, htail⟩ := List.chain'_cons'.mp hrest
        exact List.chain'_cons'.mpr ⟨fun b _ => noTwoSame_of_left_false hnf, htail⟩
      have ih := combineGoA_props k cs (add_one_seq_to_seqs last s) hchainN hwn
        (fun c hc => hwr c (List.mem_cons_of_mem _ hc))
      rw [combineGoA, if_pos hk]
      refine ⟨ih.1, ?_, ih.2.2.1, ih.2.2.2.1, ?_⟩
      · rw [ih.2.1, isSame_add_one_seq]
      · rw [ih.2.2.2.2, get_length_add_one_seq hwl hlf, List.map_cons, List.sum_cons]
        simp [ChunkData.get_length]
        omega
    · have ih := combineGoA_props k cs (ChunkData.same s) hrest
        (hwr _ (List.mem_cons_self _ _)) (fun c hc => hwr c (List.mem_cons_of_mem _ hc))
      obtain ⟨r0, rrest, hr⟩ := List.exists_cons_of_ne_nil ih.1
      rw [combineGoA, if_neg hk]
      refine ⟨by simp, by simp, ?_, ?_, ?_⟩
      · rw [hr, List.chain'_cons]
        refine ⟨?_, by rw [← hr]; exact ih.2.2.1⟩
        exact noTwoSame_of_left_false hlf
      · intro c hc
        rcases List.mem_cons.mp hc with rfl | hc2
        · exact hwl
        · exact ih.2.2.2.1 c hc2
      · rw [List.map_cons, List.sum_cons, ih.2.2.2.2, List.map_cons, List.sum_cons]

theorem combineGoA_mem_same (k : Nat) :
    ∀ (l : List ChunkData) (last : ChunkData) (x : ChunkData),
      x ∈ combineGoA k last l → x.isSame = true → x = last ∨ k < x.get_length
  | [], last, x, hx, _ => by
    rw [combineGoA, List.mem_singleton] at hx
    exact Or.inl hx
  | ChunkData.different ss :: cs, last, x, hx, hs => by
    rw [combineGoA, List.mem_cons] at hx
    rcases hx with rfl | hx2
    · exact Or.inl rfl
    · rcases combineGoA_mem_same k cs (ChunkData.different ss) x hx2 hs with h | h
      · subst h
        simp [ChunkData.isSame] at hs
      · exact Or.inr h
  | ChunkData.same s :: cs, last, x, hx, hs => by
    rw [combineGoA] at hx
    by_cases hk : s.length ≤ k
    · rw [if_pos hk] at hx
      rcases combineGoA_mem_same k cs (add_one_seq_to_seqs last s) x hx hs with h | h
      · subst h
        cases last with
        | same t => exact Or.inl rfl
        | different ts => simp [add_one_seq_to_seqs, ChunkData.isSame] at hs
      · exact Or.inr h
    · rw [if_neg hk, List.mem_cons] at hx
      rcases hx with rfl | hx2
      · exact Or.inl rfl
      · rcases combineGoA_mem_same k cs (ChunkData.same s) x hx2 hs with h | h
        · subst h
          right
          simp only [ChunkData.get_length]
          omega
        · exact Or.inr h

theorem combineGoA_tail_same (k : Nat) :
    ∀ (l : List ChunkData) (last : ChunkData) (x : ChunkData),
      x ∈ (combineGoA k last l).tail → x.isSame = true → k < x.get_length
  | [], last, x, hx, _ => by
    rw [combineGoA] at hx
    simp at hx
  | ChunkData.different ss :: cs, last, x, hx, hs => by
    rw [combineGoA, List.tail_cons] at hx
    rcases combineGoA_mem_same k cs (ChunkData.different ss) x hx hs with h | h
    · subst h
      simp [ChunkData.isSame] at hs
    · exact h
  | ChunkData.same s :: cs, last, x, hx, hs => by
    rw [combineGoA] at hx
    by_cases hk : s.length ≤ k
    · rw [if_pos hk] at hx
      exact combineGoA_tail_same k cs (add_one_seq_to_seqs last s) x hx hs
    · rw [if_neg hk, List.tail_cons] at hx
      rcases combineGoA_mem_same k cs (ChunkData.same s) x hx hs with h | h
      · subst h
        simp only [ChunkData.get_length]
        omega
      · exact h

theorem combineGoB_props :
    ∀ (l : List ChunkData) (last : ChunkData),
      List.Chain' noTwoSame (last :: l) → last.wf = true → (∀ c ∈ l, c.wf = true) →
      combineGoB last l ≠ [] ∧
      (combineGoB last l).headI.isSame = last.isSame ∧
      List.Chain' kindsDiffer (combineGoB last l) ∧
      ((combineGoB last l).map ChunkData.get_length).sum =
        last.get_length + (l.map ChunkData.get_length).sum
  | [], last, _, _, _ => by
    refine ⟨by simp [combineGoB], by simp [combineGoB], by simp [combineGoB], ?_⟩
    simp [combineGoB]
  | ChunkData.same s :: cs, last, hch, hwl, hwr => by
    obtain ⟨h12, hrest⟩ := List.chain'_cons.mp hch
    have hlf : last.isSame = false := left_false_of_noTwoSame h12 rfl
    have ih := combineGoB_props cs (ChunkData.same s) hrest
      (hwr _ (List.mem_cons_self _ _)) (fun c hc => hwr c (List.mem_cons_of_mem _ hc))
    obtain ⟨r0, rrest, hr⟩ := List.exists_cons_of_ne_nil ih.1
    have hr0 : r0.isSame = true := by
      have := ih.2.1
      rw [hr] at this
      simpa [ChunkData.isSame] using this
    rw [combineGoB]
    refine ⟨by simp, by simp, ?_, ?_⟩
    · rw [hr, List.chain'_cons]
      refine ⟨?_, by rw [← hr]; exact ih.2.2.1⟩
      rw [kindsDiffer, hlf, hr0]
      simp
    · rw [List.map_cons, List.sum_cons, ih.2.2.2, List.map_cons, List.sum_cons]
  | ChunkData.different ss :: cs, last, hch, hwl, hwr => by
    obtain ⟨h12, hrest⟩ := List.chain'_cons.mp hch
    cases last with
    | different ts =>
      have hts : ts ≠ [] := by
        have := hwl
        rw [ChunkData.wf] at this
        simpa [List.isEmpty_iff] using this
      have hss : ss ≠ [] := by
        have := hwr _ (List.mem_cons_self _ _)
        rw [ChunkData.wf] at this
        simpa [List.isEmpty_iff] using this
      have hwn := add_multiple_wf hts hss
      have hchainN : List.Chain' noTwoSame (add_multiple_seqs_to_seqs
          (ChunkData.different ts) ss :: cs) := by
        obtain ⟨_, htail⟩ := List.chain'_cons'.mp hrest
        exact List.chain'_cons'.mpr
          ⟨fun b _ => noTwoSame_of_left_false (add_multiple_isSame ts ss), htail⟩
      have ih := combineGoB_props cs (add_multiple_seqs_to_seqs (ChunkData.different ts) ss)
        hchainN hwn (fun c hc => hwr c (List.mem_cons_of_mem _ hc))
      rw [combineGoB]
      refine ⟨ih.1, ?_, ih.2.2.1, ?_⟩
      · rw [ih.2.1, add_multiple_isSame]
        rfl
      · rw [ih.2.2.2, add_multiple_get_length hts hss, List.map_cons, List.sum_cons]
        omega
    | same t =>
      have ih := combineGoB_props cs (ChunkData.different ss) hrest
        (hwr _ (List.mem_cons_self _ _)) (fun c hc => hwr c (List.mem_cons_of_mem _ hc))
      obtain ⟨r0, rrest, hr⟩ := List.exists_cons_of_ne_nil ih.1
      have hr0 : r0.isSame = false := by
        have := ih.2.1
        rw [hr] at this
        simpa [ChunkData.isSame] using this
      rw [combineGoB]
      refine ⟨by simp, by simp, ?_, ?_⟩
      · rw [hr, List.chain'_cons]
        refine ⟨?_, by rw [← hr]; exact ih.2.2.1⟩
        rw [kindsDiffer, hr0]
        simp [ChunkData.isSame]
      · rw [List.map_cons, List.sum_cons, ih.2.2.2, List.map_cons, List.sum_cons]

theorem combineGoB_mem_same :
    ∀ (l : List ChunkData) (last : ChunkData) (x : ChunkData),
      x ∈ combineGoB last l → x.isSame = true → x = last ∨ x ∈ l
  | [], last, x, hx, _ => by
    rw [combineGoB, List.mem_singleton] at hx
    exact Or.inl hx
  | ChunkData.same s :: cs, last, x, hx, hs => by
    rw [combineGoB, List.mem_cons] at hx
    rcases hx with rfl | hx2
    · exact Or.inl rfl
    · rcases combineGoB_mem_same cs (ChunkData.same s) x hx2 hs with h | h
      · exact Or.inr (h ▸ List.mem_cons_self _ _)
      · exact Or.inr (List.mem_cons_of_mem _ h)
  | ChunkData.different ss :: cs, last, x, hx, hs => by
    cases last with
    | different ts =>
      rw [combineGoB] at hx
      rcases combineGoB_mem_same cs (add_multiple_seqs_to_seqs (ChunkData.different ts) ss)
          x hx hs with h | h
      · subst h
        rw [add_multiple_isSame] at hs
        cases hs
      · exact Or.inr (List.mem_cons_of_mem _ h)
    | same t =>
      rw [combineGoB, List.mem_cons] at hx
      rcases hx with rfl | hx2
      · exact Or.inl rfl
      · rcases combineGoB_mem_same cs (ChunkData.different ss) x hx2 hs with h | h
        · subst h
          simp [ChunkData.isSame] at hs
        · exact Or.inr (List.mem_cons_of_mem _ h)

theorem combineGoB_tail_same :
    ∀ (l : List ChunkData) (last : ChunkData) (x : ChunkData),
      x ∈ (combineGoB last l).tail → x.isSame = true → x ∈ l
  | [], last, x, hx, _ => by
    rw [combineGoB] at hx
    simp at hx
  | ChunkData.same s :: cs, last, x, hx, hs => by
    rw [combineGoB, List.tail_cons] at hx
    rcases combineGoB_mem_same cs (ChunkData.same s) x hx hs with h | h
    · exact h ▸ List.mem_cons_self _ _
    · exact List.mem_cons_of_mem _ h
  | ChunkData.different ss :: cs, last, x, hx, hs => by
    cases last with
    | different ts =>
      rw [combineGoB] at hx
      exact List.mem_cons_of_mem _
        (combineGoB_tail_same cs (add_multiple_seqs_to_seqs (ChunkData.different ts) ss) x hx hs)
    | same t =>
      rw [combineGoB, List.tail_cons] at hx
      rcases combineGoB_mem_same cs (ChunkData.different ss) x hx hs with h | h
      · subst h
        simp [ChunkData.isSame] at hs
      · exact List.mem_cons_of_mem _ h

theorem noMiddleSmallSame_of_tail (k : Nat) :
    ∀ (l : List ChunkData), (∀ x ∈ l.tail, x.isSame = true → k < x.get_length) →
      noMiddleSmallSame k l
  | [], _ => trivial
  | [_], _ => trivial
  | [_, _], _ => trivial
  | a :: b :: c :: rest, h => by
    rw [noMiddleSmallSame]
    constructor
    · rintro ⟨_, h2, h3, _⟩
      have hb := h b (by simp) h2
      omega
    · refine noMiddleSmallSame_of_tail k (b :: c :: rest) ?_
      intro x hx hxs
      refine h x ?_ hxs
      rw [List.tail_cons] at hx ⊢
      exact List.mem_cons_of_mem _ hx

/-- C3: combining preserves the partitioner's postconditions (alternating
kinds, total length L) and leaves no same chunk of length at most
`combine_size` between two different chunks. -/
theorem claim_C3_combine_invariants (k : Nat) (chunks : List ChunkData) (L : Nat)
    (halt : List.Chain' kindsDiffer chunks) (hwf : ∀ c ∈ chunks, c.wf = true)
    (hsum : (chunks.map ChunkData.get_length).sum = L) :
    List.Chain' kindsDiffer (combine_chunks k chunks) ∧
    ((combine_chunks k chunks).map ChunkData.get_length).sum = L ∧
    noMiddleSmallSame k (combine_chunks k chunks) := by
  cases chunks with
  | nil =>
    rw [combine_chunks, combineA, combineB]
    exact ⟨trivial, by simpa using hsum, trivial⟩
  | cons c cs =>
    have hchain0 : List.Chain' noTwoSame (c :: cs) :=
      List.Chain'.imp (fun a b hab => noTwoSame_of_kindsDiffer hab) halt
    have ihA := combineGoA_props k cs c hchain0 (hwf c (List.mem_cons_self _ _))
      (fun u hu => hwf u (List.mem_cons_of_mem _ hu))
    obtain ⟨a0, arest, hA⟩ := List.exists_cons_of_ne_nil ihA.1
    have hchainA : List.Chain' noTwoSame (a0 :: arest) := by rw [← hA]; exact ihA.2.2.1
    have hwfA : ∀ u ∈ a0 :: arest, u.wf = true := by rw [← hA]; exact ihA.2.2.2.1
    have ihB := combineGoB_props arest a0 hchainA (hwfA a0 (List.mem_cons_self _ _))
      (fun u hu => hwfA u (List.mem_cons_of_mem _ hu))
    have hcomb : combine_chunks k (c :: cs) = combineGoB a0 arest := by
      rw [combine_chunks, combineA, hA, combineB]
    rw [hcomb]
    refine ⟨ihB.2.2.1, ?_, ?_⟩
    · rw [ihB.2.2.2]
      have hsumA : ((combineGoA k c cs).map ChunkData.get_length).sum = L := by
        rw [ihA.2.2.2.2, ← List.sum_cons, ← List.map_cons]
        exact hsum
      rw [hA, List.map_cons, List.sum_cons] at hsumA
      exact hsumA
    · refine noMiddleSmallSame_of_tail k _ ?_
      intro x hx hxs
      have hxA : x ∈ arest := combineGoB_tail_same arest a0 x hx hxs
      have : x ∈ (combineGoA k c cs).tail := by rw [hA, List.tail_cons]; exact hxA
      exact combineGoA_tail_same k cs c x this hxs

/-- Witness for C3: a concrete alternating chunk list with a small middle same
chunk that the combiner must absorb. -/
theorem claim_C3_witness :
    List.Chain' kindsDiffer
      [ChunkData.different [['C'], ['T']], ChunkData.same ['G'],
        ChunkData.different [['A'], ['-']]] ∧
    (∀ c ∈ [ChunkData.different [['C'], ['T']], ChunkData.same ['G'],
        ChunkData.different [['A'], ['-']]], c.wf = true) ∧
    (List.Chain' kindsDiffer (combine_chunks 1
        [ChunkData.different [['C'], ['T']], ChunkData.same ['G'],
          ChunkData.different [['A'], ['-']]]) ∧
      ((combine_chunks 1 [ChunkData.different [['C'], ['T']], ChunkData.same ['G'],
          ChunkData.different [['A'], ['-']]]).map ChunkData.get_length).sum = 3 ∧
      noMiddleSmallSame 1 (combine_chunks 1
        [ChunkData.different [['C'], ['T']], ChunkData.same ['G'],
          ChunkData.different [['A'], ['-']]])) := by
  refine ⟨?_, ?_, claim_C3_combine_invariants 1 _ 3 ?_ ?_ ?_⟩
  · simp [List.chain'_cons, kindsDiffer, ChunkData.isSame]
  · decide
  · simp [List.chain'_cons, kindsDiffer, ChunkData.isSame]
  · decide
  · decide

/-! ### Coordinate mapper: closed form of the dict -/

theorem withIdxFrom_append (n : Nat) (l : List Nat) (x : Nat) :
    withIdxFrom n (l ++ [x]) = withIdxFrom n l ++ [(n + l.length, x)] := by
  induction l generalizing n with
  | nil => simp [withIdxFrom]
  | cons v vs ih =>
    have h : n + 1 + vs.length = n + (vs.length + 1) := by omega
    simp only [List.cons_append, List.append_eq, withIdxFrom, ih (n + 1), List.length_cons, h]

theorem withIdxFrom_length (n : Nat) (l : List Nat) :
    (withIdxFrom n l).length = l.length := by
  induction l generalizing n with
  | nil => rfl
  | cons v vs ih => simp [withIdxFrom, ih]

theorem mem_withIdxFrom : ∀ {n : Nat} {l : List Nat} {e : Nat × Nat},
    e ∈ withIdxFrom n l → n ≤ e.1 ∧ e.1 < n + l.length := by
  intro n l
  induction l generalizing n with
  | nil => intro e he; simp [withIdxFrom] at he
  | cons v vs ih =>
    intro e he
    rw [withIdxFrom, List.mem_cons] at he
    rcases he with rfl | he2
    · simp
    · have := ih he2
      simp only [List.length_cons]
      omega

theorem withIdxFrom_find (p : Nat) :
    ∀ (l : List Nat) (n : Nat), n ≤ p → p < n + l.length →
      (withIdxFrom n l).find? (fun e => e.1 == p) = some (p, l.getD (p - n) 0)
  | [], n, h1, h2 => by simp at h2; omega
  | v :: vs, n, h1, h2 => by
    rw [withIdxFrom]
    by_cases hp : n = p
    · subst hp
      rw [List.find?_cons_of_pos _ (by simp)]
      simp
    · rw [List.find?_cons_of_neg _ (by simp [hp])]
      have h1a : n + 1 ≤ p := by omega
      have h2a : p < n + 1 + vs.length := by
        rw [List.length_cons] at h2
        omega
      rw [withIdxFrom_find p vs (n + 1) h1a h2a]
      have hsub : p - n = (p - (n + 1)) + 1 := by omega
      rw [hsub, List.getD_cons_succ]

theorem withIdxFrom_find_ge (p : Nat) (l : List Nat) (n : Nat) (h : n + l.length ≤ p) :
    (withIdxFrom n l).find? (fun e => e.1 == p) = none := by
  rw [List.find?_eq_none]
  intro e he
  have := mem_withIdxFrom he
  simp only [beq_iff_eq]
  omega

theorem mem_nonGapIndices_lt {s : List Char} {i : Nat} (h : i ∈ nonGapIndices s) :
    i < s.length := by
  unfold nonGapIndices at h
  rw [List.mem_filter] at h
  exact List.mem_range.mp h.1

theorem mem_nonGapIndices_ne_gap {s : List Char} {i : Nat} (h : i ∈ nonGapIndices s) :
    s.getD i '-' ≠ '-' := by
  unfold nonGapIndices at h
  rw [List.mem_filter] at h
  simpa using h.2

theorem nonGapIndices_append (t : List Char) (b : Char) :
    nonGapIndices (t ++ [b]) = nonGapIndices t ++ (if b != '-' then [t.length] else []) := by
  unfold nonGapIndices
  have hlen : (t ++ [b]).length = t.length + 1 := by simp
  rw [hlen, List.range_succ, List.filter_append]
  congr 1
  · apply List.filter_congr
    intro i hi
    rw [List.mem_range] at hi
    rw [List.getD_append _ _ _ _ hi]
  · have hb : (t ++ [b]).getD t.length '-' = b := by
      rw [List.getD_append_right _ _ _ _ le_rfl]
      simp
    cases h : (b != '-') <;> simp [List.filter, hb, h]

theorem nonGapIndices_map_getD (s : List Char) :
    (nonGapIndices s).map (fun i => s.getD i '-') = remove_gaps s := by
  induction s using List.reverseRecOn with
  | nil => simp [nonGapIndices, remove_gaps]
  | append_singleton t b ih =>
    rw [nonGapIndices_append, List.map_append]
    have hmem : ∀ i ∈ nonGapIndices t,
        (fun i => (t ++ [b]).getD i '-') i = (fun i => t.getD i '-') i := by
      intro i hi
      exact List.getD_append _ _ _ _ (mem_nonGapIndices_lt hi)
    rw [List.map_congr_left hmem, ih]
    have hrg : remove_gaps (t ++ [b]) = remove_gaps t ++ (if b != '-' then [b] else []) := by
      unfold remove_gaps
      rw [List.filter_append]
      cases h : (b != '-') <;> simp [List.filter, h]
    rw [hrg]
    congr 1
    have hb : (t ++ [b]).getD t.length '-' = b := by
      rw [List.getD_append_right _ _ _ _ le_rfl]
      simp
    cases h : (b != '-') <;> simp [hb, h]

theorem nonGapIndices_length (s : List Char) :
    (nonGapIndices s).length = (remove_gaps s).length := by
  rw [← nonGapIndices_map_getD]
  simp

theorem nonGapIndices_sorted (s : List Char) :
    List.Pairwise (· < ·) (nonGapIndices s) :=
  List.Pairwise.sublist (List.filter_sublist _) (List.pairwise_lt_range _)


theorem dictSpec_ends_gap {t : List Char} (hl : t.getLast? = some '-') :
    dictSpec t = withIdxFrom 0 (nonGapIndices t) ++ [((remove_gaps t).length, t.length - 1)] := by
  unfold dictSpec
  rw [if_pos hl]

theorem dictSpec_no_end_gap {t : List Char} (hl : ¬t.getLast? = some '-') :
    dictSpec t = withIdxFrom 0 (nonGapIndices t) := by
  unfold dictSpec
  rw [if_neg hl, List.append_nil]

theorem pyDictInsert_dictSpec (t : List Char) :
    pyDictInsert (dictSpec t) (remove_gaps t).length t.length =
      withIdxFrom 0 (nonGapIndices t) ++ [((remove_gaps t).length, t.length)] := by
  have hkey : ∀ e ∈ withIdxFrom 0 (nonGapIndices t), e.1 < (remove_gaps t).length := by
    intro e he
    have := mem_withIdxFrom he
    rw [nonGapIndices_length] at this
    omega
  have hid : ∀ e ∈ withIdxFrom 0 (nonGapIndices t),
      (fun e : Nat × Nat => if e.1 == (remove_gaps t).length
        then ((remove_gaps t).length, t.length) else e) e = id e := by
    intro e he
    have := hkey e he
    simp only [beq_iff_eq, id]
    rw [if_neg (by omega)]
  by_cases hl : t.getLast? = some '-'
  · rw [dictSpec_ends_gap hl]
    unfold pyDictInsert
    have hany : ((withIdxFrom 0 (nonGapIndices t) ++
        [((remove_gaps t).length, t.length - 1)]).any
          (fun e => e.1 == (remove_gaps t).length)) = true := by
      rw [List.any_append]
      simp
    rw [if_pos hany, List.map_append]
    congr 1
    · rw [List.map_congr_left hid, List.map_id]
    · simp
  · rw [dictSpec_no_end_gap hl]
    unfold pyDictInsert
    have hany : ((withIdxFrom 0 (nonGapIndices t)).any
        (fun e => e.1 == (remove_gaps t).length)) = false := by
      rw [List.any_eq_false]
      intro e he
      have := hkey e he
      simp only [beq_iff_eq]
      omega
    rw [if_neg (by simp [hany])]

theorem dictSpec_append (t : List Char) (b : Char) :
    dictSpec (t ++ [b]) =
      withIdxFrom 0 (nonGapIndices t) ++ [((remove_gaps t).length, t.length)] := by
  have hlast : (t ++ [b]).getLast? = some b := List.getLast?_concat t
  by_cases hbeq : b = '-'
  · subst hbeq
    have h1 : nonGapIndices (t ++ ['-']) = nonGapIndices t := by
      rw [nonGapIndices_append]
      simp
    have h2 : remove_gaps (t ++ ['-']) = remove_gaps t := by
      unfold remove_gaps
      rw [List.filter_append]
      simp [List.filter]
    unfold dictSpec
    rw [h1, h2, hlast, if_pos rfl]
    simp
  · have h1 : nonGapIndices (t ++ [b]) = nonGapIndices t ++ [t.length] := by
      rw [nonGapIndices_append]
      simp [hbeq]
    unfold dictSpec
    rw [h1, hlast, if_neg (fun h => hbeq (Option.some.inj h)), withIdxFrom_append,
      nonGapIndices_length]
    simp

theorem dict_build_spec (s : List Char) :
    s.foldl dictStep ([], 0, 0) = (dictSpec s, (remove_gaps s).length, s.length) := by
  induction s using List.reverseRecOn with
  | nil => simp [dictSpec, nonGapIndices, remove_gaps, withIdxFrom]
  | append_singleton t b ih =>
    rw [List.foldl_append, ih, List.foldl_cons, List.foldl_nil]
    unfold dictStep
    have hu : (remove_gaps (t ++ [b])).length =
        (remove_gaps t).length + (if b != '-' then 1 else 0) := by
      unfold remove_gaps
      rw [List.filter_append]
      cases h : (b != '-') <;> simp [List.filter, h]
    refine congrArg₂ Prod.mk ?_ (congrArg₂ Prod.mk ?_ ?_)
    · rw [pyDictInsert_dictSpec, dictSpec_append]
    · rw [hu]
      cases h : (b != '-') <;> simp [h]
    · simp

theorem make_dict_eq (s : List Char) :
    make_ungapped_pos_to_gapped_pos_dict s = (dictSpec s, (remove_gaps s).length) := by
  unfold make_ungapped_pos_to_gapped_pos_dict
  rw [dict_build_spec]

theorem dictGet_dictSpec_lt {s : List Char} {p : Nat} (hp : p < (remove_gaps s).length) :
    dictGet (dictSpec s) p = some ((nonGapIndices s).getD p 0) := by
  unfold dictGet dictSpec
  rw [List.find?_append]
  have h1 : (withIdxFrom 0 (nonGapIndices s)).find? (fun e => e.1 == p) =
      some (p, (nonGapIndices s).getD (p - 0) 0) :=
    withIdxFrom_find p _ 0 (Nat.zero_le p)
      (by rw [Nat.zero_add, nonGapIndices_length]; exact hp)
  rw [h1]
  simp

theorem dictGet_dictSpec_at_len (s : List Char) :
    dictGet (dictSpec s) (remove_gaps s).length =
      if s.getLast? = some '-' then some (s.length - 1) else none := by
  unfold dictGet dictSpec
  rw [List.find?_append]
  have h1 : (withIdxFrom 0 (nonGapIndices s)).find?
      (fun e => e.1 == (remove_gaps s).length) = none :=
    withIdxFrom_find_ge _ _ 0 (by rw [Nat.zero_add, nonGapIndices_length])
  rw [h1]
  by_cases hl : s.getLast? = some '-' <;> simp [hl]

/-- C4: for every ungapped position p of any gapped consensus, the coordinate
map is defined at p, the gapped consensus base at the mapped position equals
the ungapped consensus base at p and is never a gap, and the map is strictly
increasing: every later ungapped position maps to a strictly larger gapped
position. -/
theorem claim_C4_coordinate_map_roundtrip (s : List Char) (p : Nat)
    (hp : p < (remove_gaps s).length) :
    ∃ gp : Nat,
      dictGet (make_ungapped_pos_to_gapped_pos_dict s).1 p = some gp ∧
      s.getD gp '-' = (remove_gaps s).getD p '-' ∧
      s.getD gp '-' ≠ '-' ∧
      (∀ q gq : Nat, p < q → q < (remove_gaps s).length →
        dictGet (make_ungapped_pos_to_gapped_pos_dict s).1 q = some gq → gp < gq) := by
  rw [make_dict_eq]
  have hplen : p < (nonGapIndices s).length := by rw [nonGapIndices_length]; exact hp
  refine ⟨(nonGapIndices s).getD p 0, dictGet_dictSpec_lt hp, ?_, ?_, ?_⟩
  · have hmap := nonGapIndices_map_getD s
    have hmlen : p < ((nonGapIndices s).map (fun i => s.getD i '-')).length := by
      rw [List.length_map]
      exact hplen
    calc s.getD ((nonGapIndices s).getD p 0) '-'
        = ((nonGapIndices s).map (fun i => s.getD i '-')).getD p '-' := by
          rw [List.getD_eq_getElem _ _ hplen, List.getD_eq_getElem _ _ hmlen,
            List.getElem_map]
      _ = (remove_gaps s).getD p '-' := by rw [hmap]
  · have hmem : (nonGapIndices s).getD p 0 ∈ nonGapIndices s := by
      rw [List.getD_eq_getElem _ _ hplen]
      exact List.getElem_mem _
    exact mem_nonGapIndices_ne_gap hmem
  · intro q gq hpq hq hlookup
    have hqlen : q < (nonGapIndices s).length := by rw [nonGapIndices_length]; exact hq
    have hgq : gq = (nonGapIndices s).getD q 0 := by
      have := dictGet_dictSpec_lt hq
      rw [this] at hlookup
      exact (Option.some.inj hlookup).symm
    rw [hgq, List.getD_eq_getElem _ _ hplen, List.getD_eq_getElem _ _ hqlen]
    exact List.pairwise_iff_getElem.mp (nonGapIndices_sorted s) p q hplen hqlen hpq

/-- Witness for C4 on the gapped consensus A-C at ungapped position 0, whose
later position 1 maps strictly past it. -/
theorem claim_C4_witness :
    0 < (remove_gaps ['A', '-', 'C']).length ∧
    (∃ gp : Nat,
      dictGet (make_ungapped_pos_to_gapped_pos_dict ['A', '-', 'C']).1 0 = some gp ∧
      (['A', '-', 'C'] : List Char).getD gp '-' = (remove_gaps ['A', '-', 'C']).getD 0 '-' ∧
      (['A', '-', 'C'] : List Char).getD gp '-' ≠ '-' ∧
      (∀ q gq : Nat, 0 < q → q < (remove_gaps ['A', '-', 'C']).length →
        dictGet (make_ungapped_pos_to_gapped_pos_dict ['A', '-', 'C']).1 q = some gq →
          gp < gq)) :=
  ⟨by decide, claim_C4_coordinate_map_roundtrip ['A', '-', 'C'] 0 (by decide)⟩

/-- C5 counterexample: on the gapped consensus A- the coordinate dict holds
two entries while the ungapped consensus has a single character, so the map
does not have exactly as many entries as the ungapped consensus. -/
theorem claim_C5_counterexample :
    ¬((make_ungapped_pos_to_gapped_pos_dict ['A', '-']).1.length =
      (remove_gaps ['A', '-']).length) := by
  decide

/-- C5 amended: the final counter always equals the ungapped length, and the
map has exactly ungapped-length entries unless the gapped consensus ends in a
gap character, in which case it has one extra entry. -/
theorem claim_C5_entry_count_amended (s : List Char) :
    (make_ungapped_pos_to_gapped_pos_dict s).2 = (remove_gaps s).length ∧
    (make_ungapped_pos_to_gapped_pos_dict s).1.length =
      (remove_gaps s).length + (if s.getLast? = some '-' then 1 else 0) := by
  rw [make_dict_eq]
  refine ⟨rfl, ?_⟩
  unfold dictSpec
  rw [List.length_append, withIdxFrom_length, nonGapIndices_length]
  by_cases hl : s.getLast? = some '-' <;> simp [hl]

/-- C10: the coordinate dict has an entry at key `ungapped_len` exactly when
the gapped consensus ends with a gap character, and on a consensus ending in
a base an alignment with `ref_end` equal to the ungapped length makes the
chunk-indexing loop fail its dict lookup (a `KeyError`) instead of assigning
the read. -/
theorem claim_C10_keyerror_at_ref_end :
    (∀ s : List Char,
      (dictGet (make_ungapped_pos_to_gapped_pos_dict s).1 (remove_gaps s).length).isSome ↔
        s.getLast? = some '-') ∧
    index_chunk_reads (make_ungapped_pos_to_gapped_pos_dict ['A']).1 1 1
      [{ query_name := "r1", ref_start := 0, ref_end := 1, query_start := 0, query_end := 1,
         query_cov := 1, alignment_score := 5 }] 0
      [(ChunkData.different [['A'], ['C']], ∅)] = none := by
  constructor
  · intro s
    rw [make_dict_eq]
    show (dictGet (dictSpec s) (remove_gaps s).length).isSome ↔ _
    rw [dictGet_dictSpec_at_len]
    by_cases hl : s.getLast? = some '-' <;> simp [hl]
  · rfl

/-! ### Read indexer: reference construction and best-per-read filter -/

/-- C7: with the circularity flag the aligner reference is the doubled
ungapped consensus and alignments starting at or beyond the ungapped length
are discarded; without it the reference is the ungapped consensus and the
alignment list is untouched. -/
theorem claim_C7_circular_reference (s : List Char) (alignments : List AlignmentRecord) :
    (build_reference true s = s ++ s ∧ (build_reference true s).length = 2 * s.length) ∧
    (∀ a : AlignmentRecord, a ∈ trim_circular_alignments true s.length alignments ↔
      a ∈ alignments ∧ a.ref_start < s.length) ∧
    build_reference false s = s ∧
    trim_circular_alignments false s.length alignments = alignments := by
  refine ⟨⟨rfl, ?_⟩, ?_, rfl, rfl⟩
  · show (s ++ s).length = 2 * s.length
    rw [List.length_append]
    omega
  · intro a
    show a ∈ alignments.filter (fun a => decide (a.ref_start < s.length)) ↔ _
    rw [List.mem_filter]
    simp

theorem length_remove_gaps : ∀ g : List Char, (remove_gaps g).length = g.length - g.count '-'
  | [] => rfl
  | c :: g => by
    have hle : g.count '-' ≤ g.length := List.count_le_length _ _
    have ih := length_remove_gaps g
    unfold remove_gaps at ih ⊢
    by_cases hc : c = '-'
    · subst hc
      rw [List.filter_cons_of_neg (by simp), List.count_cons_self, List.length_cons]
      omega
    · rw [List.filter_cons_of_pos (by simp [hc]),
        List.count_cons_of_ne (fun h => hc h.symm), List.length_cons, List.length_cons]
      omega

/-- C9: the gapped consensus is the concatenation of the chunks' best
sequences and has length L; the ungapped consensus is the gapped one with
gaps removed, of length L minus the gap count, hence at most L. -/
theorem claim_C9_consensus_lengths (chunks : List ChunkData) (L : Nat)
    (hwf : ∀ c ∈ chunks, c.lenWF = true)
    (hsum : (chunks.map ChunkData.get_length).sum = L) :
    (make_initial_consensus chunks).1 = (chunks.map get_most_common_seq).flatten ∧
    (make_initial_consensus chunks).1.length = L ∧
    (make_initial_consensus chunks).2 = remove_gaps (make_initial_consensus chunks).1 ∧
    (make_initial_consensus chunks).2.length =
      L - (make_initial_consensus chunks).1.count '-' ∧
    (make_initial_consensus chunks).2.length ≤ L := by
  have h1 : (make_initial_consensus chunks).1 = (chunks.map get_most_common_seq).flatten := rfl
  have h3 : (make_initial_consensus chunks).2 = remove_gaps (make_initial_consensus chunks).1 :=
    rfl
  have h2 : (make_initial_consensus chunks).1.length = L := by
    rw [h1, List.length_flatten, List.map_map]
    rw [← hsum]
    congr 1
    apply List.map_congr_left
    intro c hc
    exact get_most_common_length c (hwf c hc)
  have h4 : (make_initial_consensus chunks).2.length =
      L - (make_initial_consensus chunks).1.count '-' := by
    rw [h3, length_remove_gaps, h2]
  exact ⟨h1, h2, h3, h4, by rw [h4]; omega⟩

/-- Witness for C9 on a two-chunk list covering an MSA of length 3. -/
theorem claim_C9_witness :
    (∀ c ∈ [ChunkData.same ['A'], ChunkData.different [['C', '-'], ['C', 'T']]],
      c.lenWF = true) ∧
    ((([ChunkData.same ['A'], ChunkData.different [['C', '-'], ['C', 'T']]]).map
      ChunkData.get_length).sum = 3) ∧
    ((make_initial_consensus
        [ChunkData.same ['A'], ChunkData.different [['C', '-'], ['C', 'T']]]).1.length = 3 ∧
      (make_initial_consensus
        [ChunkData.same ['A'], ChunkData.different [['C', '-'], ['C', 'T']]]).2.length ≤ 3) := by
  refine ⟨by decide, by decide, ?_, ?_⟩
  · exact (claim_C9_consensus_lengths _ 3 (by decide) (by decide)).2.1
  · exact (claim_C9_consensus_lengths _ 3 (by decide) (by decide)).2.2.2.2

theorem scoreDesc_headI_max (l : List AlignmentRecord) :
    ∀ x ∈ l, x.alignment_score ≤
      (List.insertionSort
        (fun a b : AlignmentRecord => b.alignment_score ≤ a.alignment_score) l).headI.alignment_score :=
  fun x hx => headI_insertionSort_rel
    (fun a b : AlignmentRecord => b.alignment_score ≤ a.alignment_score)
    (fun a => le_refl a.alignment_score) (fun _ _ _ hab hbc => le_trans hbc hab)
    (fun a b => Int.le_total b.alignment_score a.alignment_score) l x hx

theorem first_max_insertionSort :
    ∀ (l : List AlignmentRecord), l ≠ [] →
      ∃ pre post, l = pre ++ (List.insertionSort
          (fun a b : AlignmentRecord => b.alignment_score ≤ a.alignment_score) l).headI :: post ∧
        ∀ b ∈ pre, b.alignment_score < (List.insertionSort
          (fun a b : AlignmentRecord => b.alignment_score ≤ a.alignment_score)
            l).headI.alignment_score
  | [], hl => absurd rfl hl
  | [a], _ => by
    refine ⟨[], [], ?_, by simp⟩
    simp [List.insertionSort, List.orderedInsert]
  | a :: b :: l, _ => by
    obtain ⟨h0, st, hs⟩ := List.exists_cons_of_ne_nil
      (insertionSort_ne_nil (fun x y : AlignmentRecord => y.alignment_score ≤ x.alignment_score)
        (List.cons_ne_nil b l))
    obtain ⟨pre, post, hdec, hpre⟩ := first_max_insertionSort (b :: l) (List.cons_ne_nil b l)
    rw [hs] at hdec hpre
    simp only [List.headI_cons] at hdec hpre
    have hunf : List.insertionSort
        (fun x y : AlignmentRecord => y.alignment_score ≤ x.alignment_score) (a :: b :: l) =
        List.orderedInsert (fun x y : AlignmentRecord => y.alignment_score ≤ x.alignment_score)
          a (h0 :: st) := by
      rw [List.insertionSort, hs]
    by_cases hr : h0.alignment_score ≤ a.alignment_score
    · have hhead : (List.insertionSort
          (fun x y : AlignmentRecord => y.alignment_score ≤ x.alignment_score)
            (a :: b :: l)).headI = a := by
        rw [hunf, List.orderedInsert, if_pos hr]
        rfl
      exact ⟨[], b :: l, by rw [hhead]; simp, by simp⟩
    · have hhead : (List.insertionSort
          (fun x y : AlignmentRecord => y.alignment_score ≤ x.alignment_score)
            (a :: b :: l)).headI = h0 := by
        rw [hunf, List.orderedInsert, if_neg hr]
        cases hoi : List.orderedInsert
            (fun x y : AlignmentRecord => y.alignment_score ≤ x.alignment_score) a st with
        | nil => rfl
        | cons u us => rfl
      rw [hhead]
      refine ⟨a :: pre, post, ?_, ?_⟩
      · rw [List.cons_append, ← hdec]
      · intro x hx
        rcases List.mem_cons.mp hx with rfl | hx2
        · omega
        · exact hpre x hx2

/-- C8: the best-per-read filter keeps exactly one alignment per distinct read
identifier (in first-occurrence order), each kept alignment occurs in the
input and has the maximal score among its read's records, and among records
tied at that score the one occurring earliest in the input is the one kept. -/
theorem claim_C8_best_per_read (alignments : List AlignmentRecord) (o : AlignmentRecord)
    (ho : o ∈ get_best_alignment_per_read alignments) :
    ((get_best_alignment_per_read alignments).map (fun a => a.query_name) =
      firstDedup (alignments.map (fun a => a.query_name))) ∧
    ((get_best_alignment_per_read alignments).map (fun a => a.query_name)).Nodup ∧
    (∀ n : String, n ∈ (get_best_alignment_per_read alignments).map (fun a => a.query_name) ↔
      n ∈ alignments.map (fun a => a.query_name)) ∧
    o ∈ alignments ∧
    (∀ b ∈ alignments, b.query_name = o.query_name →
      b.alignment_score ≤ o.alignment_score) ∧
    (∃ pre post, alignments.filter (fun a => a.query_name == o.query_name) =
      pre ++ o :: post ∧ ∀ b ∈ pre, b.alignment_score < o.alignment_score) := by
  have hgroup_ne : ∀ n ∈ firstDedup (alignments.map (fun a => a.query_name)),
      alignments.filter (fun a => a.query_name == n) ≠ [] := by
    intro n hn
    rw [mem_firstDedup, List.mem_map] at hn
    obtain ⟨a, ha, rfl⟩ := hn
    exact List.ne_nil_of_mem (List.mem_filter.mpr ⟨ha, by simp⟩)
  have hchoose : ∀ n ∈ firstDedup (alignments.map (fun a => a.query_name)),
      (List.insertionSort (fun a b : AlignmentRecord => b.alignment_score ≤ a.alignment_score)
        (alignments.filter (fun a => a.query_name == n))).headI ∈
        alignments.filter (fun a => a.query_name == n) := by
    intro n hn
    exact ((List.perm_insertionSort _ _).mem_iff).mp
      (headI_mem_of_ne_nil (insertionSort_ne_nil _ (hgroup_ne n hn)))
  have hname : ∀ n ∈ firstDedup (alignments.map (fun a => a.query_name)),
      (List.insertionSort (fun a b : AlignmentRecord => b.alignment_score ≤ a.alignment_score)
        (alignments.filter (fun a => a.query_name == n))).headI.query_name = n := by
    intro n hn
    have := List.mem_filter.mp (hchoose n hn)
    exact beq_iff_eq.mp this.2
  have hmapnames : (get_best_alignment_per_read alignments).map (fun a => a.query_name) =
      firstDedup (alignments.map (fun a => a.query_name)) := by
    show ((firstDedup (alignments.map (fun a => a.query_name))).map _).map _ = _
    rw [List.map_map]
    refine Eq.trans (List.map_congr_left ?_) (List.map_id _)
    intro n hn
    exact hname n hn
  refine ⟨hmapnames, ?_, ?_, ?_, ?_, ?_⟩
  · rw [hmapnames]
    exact nodup_firstDedup _
  · intro n
    rw [hmapnames, mem_firstDedup]
  · rw [get_best_alignment_per_read, List.mem_map] at ho
    obtain ⟨n, hn, rfl⟩ := ho
    exact (List.mem_filter.mp (hchoose n hn)).1
  · rw [get_best_alignment_per_read, List.mem_map] at ho
    obtain ⟨n, hn, rfl⟩ := ho
    intro b hb hbn
    have hbg : b ∈ alignments.filter (fun a => a.query_name == n) := by
      rw [List.mem_filter]
      refine ⟨hb, ?_⟩
      rw [hbn, hname n hn]
      simp
    exact scoreDesc_headI_max _ b hbg
  · rw [get_best_alignment_per_read, List.mem_map] at ho
    obtain ⟨n, hn, rfl⟩ := ho
    have hfilter_eq : alignments.filter (fun a => a.query_name ==
        (List.insertionSort (fun a b : AlignmentRecord => b.alignment_score ≤ a.alignment_score)
          (alignments.filter (fun a => a.query_name == n))).headI.query_name) =
        alignments.filter (fun a => a.query_name == n) := by
      rw [hname n hn]
    rw [hfilter_eq]
    exact first_max_insertionSort _ (hgroup_ne n hn)

/-- Witness for C8: two records for read r1 tie at score 10; the first one in
the input is the one kept, and it dominates every record of its read. -/
theorem claim_C8_witness :
    ((⟨"r1", 0, 5, 0, 5, 1, 10⟩ : AlignmentRecord) ∈ get_best_alignment_per_read
      [⟨"r1", 0, 5, 0, 5, 1, 10⟩, ⟨"r2", 1, 3, 0, 2, 1, 7⟩, ⟨"r1", 2, 6, 0, 4, 1, 10⟩]) ∧
    (⟨"r1", 0, 5, 0, 5, 1, 10⟩ : AlignmentRecord) ∈
      [(⟨"r1", 0, 5, 0, 5, 1, 10⟩ : AlignmentRecord), ⟨"r2", 1, 3, 0, 2, 1, 7⟩,
        ⟨"r1", 2, 6, 0, 4, 1, 10⟩] ∧
    (∀ b ∈ [(⟨"r1", 0, 5, 0, 5, 1, 10⟩ : AlignmentRecord), ⟨"r2", 1, 3, 0, 2, 1, 7⟩,
        ⟨"r1", 2, 6, 0, 4, 1, 10⟩],
      b.query_name = (⟨"r1", 0, 5, 0, 5, 1, 10⟩ : AlignmentRecord).query_name →
        b.alignment_score ≤ (⟨"r1", 0, 5, 0, 5, 1, 10⟩ : AlignmentRecord).alignment_score) := by
  refine ⟨by decide, ?_, ?_⟩
  · exact (claim_C8_best_per_read _ _ (by decide)).2.2.2.1
  · exact (claim_C8_best_per_read _ _ (by decide)).2.2.2.2.1

/-! ### Read indexer: chunk assignment -/

theorem totalLen_nil : totalLen [] = 0 := rfl

theorem totalLen_cons (c : ChunkData) (n : Finset String)
    (l : List (ChunkData × Finset String)) :
    totalLen ((c, n) :: l) = c.get_length + totalLen l := by
  simp [totalLen]

theorem totalLen_append (l1 l2 : List (ChunkData × Finset String)) :
    totalLen (l1 ++ l2) = totalLen l1 + totalLen l2 := by
  simp [totalLen]

theorem gather_single (d : List (Nat × Nat)) (uLen gLen cs ce : Nat)
    (names : Finset String) (a : AlignmentRecord) :
    gather_chunk_reads d uLen gLen cs ce names [a] =
      process_alignment d uLen gLen cs ce names a := by
  unfold gather_chunk_reads
  cases h : process_alignment d uLen gLen cs ce names a with
  | none => simp [List.foldlM, h]
  | some r => simp [List.foldlM, h]

theorem process_alignment_no_overlap (d : List (Nat × Nat)) (uLen gLen cs ce : Nat)
    (names : Finset String) (a : AlignmentRecord) (gs ge : Nat)
    (h1 : dictGet d a.ref_start = some gs) (h2 : a.ref_end ≤ uLen)
    (h3 : dictGet d a.ref_end = some ge) (hov : range_overlap cs ce gs ge = false) :
    process_alignment d uLen gLen cs ce names a = some names := by
  unfold process_alignment
  simp only [h1]
  rw [if_pos h2]
  simp only [h3]
  rw [hov]
  simp

theorem index_skip_before (d : List (Nat × Nat)) (uLen gLen : Nat) (a : AlignmentRecord)
    (gs ge : Nat) (h1 : dictGet d a.ref_start = some gs) (h2 : a.ref_end ≤ uLen)
    (h3 : dictGet d a.ref_end = some ge) :
    ∀ (cs rest : List (ChunkData × Finset String)) (start : Nat),
      start + totalLen cs ≤ gs →
      index_chunk_reads d uLen gLen [a] start (cs ++ rest) =
        (index_chunk_reads d uLen gLen [a] (start + totalLen cs) rest).map
          (fun r => (cs ++ r.1, r.2))
  | [], rest, start, _ => by
    rw [List.nil_append, totalLen_nil, Nat.add_zero]
    cases h : index_chunk_reads d uLen gLen [a] start rest with
    | none => simp
    | some r => simp
  | (c, names) :: cs, rest, start, hle => by
    rw [totalLen_cons] at hle
    have hskip := index_skip_before d uLen gLen a gs ge h1 h2 h3 cs rest
      (start + c.get_length) (by omega)
    cases c with
    | same s =>
      rw [List.cons_append]
      simp only [index_chunk_reads]
      rw [hskip]
      cases h : index_chunk_reads d uLen gLen [a]
          (start + (ChunkData.same s).get_length + totalLen cs) rest with
      | none =>
        rw [totalLen_cons]
        have harith : start + ((ChunkData.same s).get_length + totalLen cs) =
            start + (ChunkData.same s).get_length + totalLen cs := by omega
        rw [harith, h]
        simp
      | some r =>
        rw [totalLen_cons]
        have harith : start + ((ChunkData.same s).get_length + totalLen cs) =
            start + (ChunkData.same s).get_length + totalLen cs := by omega
        rw [harith, h]
        simp
    | different ss =>
      have hov : range_overlap start (start + (ChunkData.different ss).get_length) gs ge
          = false := by
        unfold range_overlap
        have hno : ¬(gs < start + (ChunkData.different ss).get_length) := by omega
        simp [hno]
      have hproc := process_alignment_no_overlap d uLen gLen start
        (start + (ChunkData.different ss).get_length) names a gs ge h1 h2 h3 hov
      rw [List.cons_append]
      simp only [index_chunk_reads]
      rw [gather_single, hproc]
      rw [hskip]
      cases h : index_chunk_reads d uLen gLen [a]
          (start + (ChunkData.different ss).get_length + totalLen cs) rest with
      | none =>
        rw [totalLen_cons]
        have harith : start + ((ChunkData.different ss).get_length + totalLen cs) =
            start + (ChunkData.different ss).get_length + totalLen cs := by omega
        rw [harith, h]
        simp
      | some r =>
        rw [totalLen_cons]
        have harith : start + ((ChunkData.different ss).get_length + totalLen cs) =
            start + (ChunkData.different ss).get_length + totalLen cs := by omega
        rw [harith, h]
        simp

theorem index_after (d : List (Nat × Nat)) (uLen gLen : Nat) (a : AlignmentRecord)
    (gs ge : Nat) (h1 : dictGet d a.ref_start = some gs) (h2 : a.ref_end ≤ uLen)
    (h3 : dictGet d a.ref_end = some ge) :
    ∀ (cs : List (ChunkData × Finset String)) (start : Nat), ge ≤ start →
      index_chunk_reads d uLen gLen [a] start cs = some (cs, start + totalLen cs)
  | [], start, _ => by
    simp [index_chunk_reads, totalLen_nil]
  | (c, names) :: cs, start, hge => by
    have hih := index_after d uLen gLen a gs ge h1 h2 h3 cs (start + c.get_length)
      (by omega)
    cases c with
    | same s =>
      simp only [index_chunk_reads]
      rw [hih]
      rw [totalLen_cons]
      have harith : start + (ChunkData.same s).get_length + totalLen cs =
          start + ((ChunkData.same s).get_length + totalLen cs) := by omega
      rw [harith]
      simp
    | different ss =>
      have hov : range_overlap start (start + (ChunkData.different ss).get_length) gs ge
          = false := by
        unfold range_overlap
        have hno : ¬(start < ge) := by omega
        simp [hno]
      have hproc := process_alignment_no_overlap d uLen gLen start
        (start + (ChunkData.different ss).get_length) names a gs ge h1 h2 h3 hov
      simp only [index_chunk_reads]
      rw [gather_single, hproc, hih]
      rw [totalLen_cons]
      have harith : start + (ChunkData.different ss).get_length + totalLen cs =
          start + ((ChunkData.different ss).get_length + totalLen cs) := by omega
      rw [harith]
      simp

/-- C6: a surviving alignment whose translated gapped footprint is non-empty
and lies inside the gapped range of one different chunk adds its read name to
that chunk only — every other chunk, and in particular every same chunk,
keeps its read names — and the final gapped cursor equals the gapped length. -/
theorem claim_C6_read_assignment (d : List (Nat × Nat)) (uLen gLen : Nat)
    (a : AlignmentRecord) (gs ge : Nat)
    (pre post : List (ChunkData × Finset String)) (ds : List (List Char))
    (names : Finset String)
    (h1 : dictGet d a.ref_start = some gs) (h2 : a.ref_end ≤ uLen)
    (h3 : dictGet d a.ref_end = some ge)
    (hS : totalLen pre ≤ gs) (hgsge : gs < ge)
    (hge : ge ≤ totalLen pre + (ChunkData.different ds).get_length)
    (htot : totalLen (pre ++ (ChunkData.different ds, names) :: post) = gLen) :
    index_chunk_reads d uLen gLen [a] 0 (pre ++ (ChunkData.different ds, names) :: post) =
      some (pre ++ (ChunkData.different ds, insert a.query_name names) :: post, gLen) := by
  rw [index_skip_before d uLen gLen a gs ge h1 h2 h3 pre _ 0 (by omega)]
  rw [Nat.zero_add]
  have hov : range_overlap (totalLen pre)
      (totalLen pre + (ChunkData.different ds).get_length) gs ge = true := by
    unfold range_overlap
    simp only [Bool.and_eq_true, decide_eq_true_eq]
    omega
  have hproc : process_alignment d uLen gLen (totalLen pre)
      (totalLen pre + (ChunkData.different ds).get_length) names a =
      some (insert a.query_name names) := by
    unfold process_alignment
    simp only [h1]
    rw [if_pos h2]
    simp only [h3]
    rw [hov]
    simp
  simp only [index_chunk_reads]
  rw [gather_single, hproc]
  rw [index_after d uLen gLen a gs ge h1 h2 h3 post
    (totalLen pre + (ChunkData.different ds).get_length) (by omega)]
  rw [totalLen_append, totalLen_cons] at htot
  have harith : totalLen pre + (ChunkData.different ds).get_length + totalLen post = gLen := by
    omega
  rw [harith]
  simp

/-- Witness for C6: read r1 aligns exactly onto the middle different chunk of
a three-chunk consensus ACGT; it is assigned there and nowhere else, and the
cursor ends at the gapped length 4. -/
theorem claim_C6_witness :
    (dictGet [(0, 0), (1, 1), (2, 2), (3, 3)] 1 = some 1) ∧
    ((2 : Nat) ≤ 4) ∧
    (dictGet [(0, 0), (1, 1), (2, 2), (3, 3)] 2 = some 2) ∧
    (totalLen [(ChunkData.same ['A'], ∅)] ≤ 1) ∧ (1 < 2) ∧
    ((2 : Nat) ≤ totalLen [(ChunkData.same ['A'], ∅)] +
      (ChunkData.different [['C'], ['G']]).get_length) ∧
    (totalLen [(ChunkData.same ['A'], ∅), (ChunkData.different [['C'], ['G']], ∅),
      (ChunkData.same ['T', 'T'], ∅)] = 4) ∧
    index_chunk_reads [(0, 0), (1, 1), (2, 2), (3, 3)] 4 4
      [{ query_name := "r1", ref_start := 1, ref_end := 2, query_start := 0, query_end := 1,
         query_cov := 1, alignment_score := 5 }] 0
      [(ChunkData.same ['A'], ∅), (ChunkData.different [['C'], ['G']], ∅),
        (ChunkData.same ['T', 'T'], ∅)] =
      some ([(ChunkData.same ['A'], ∅),
        (ChunkData.different [['C'], ['G']], insert "r1" ∅),
        (ChunkData.same ['T', 'T'], ∅)], 4) :=
  ⟨by decide, by decide, by decide, by decide, by decide, by decide, by decide,
    claim_C6_read_assignment [(0, 0), (1, 1), (2, 2), (3, 3)] 4 4
      { query_name := "r1", ref_start := 1, ref_end := 2, query_start := 0, query_end := 1,
        query_cov := 1, alignment_score := 5 } 1 2
      [(ChunkData.same ['A'], ∅)] [(ChunkData.same ['T', 'T'], ∅)] [['C'], ['G']] ∅
      (by decide) (by decide) (by decide) (by decide) (by decide) (by decide) (by decide)⟩
